import Mathlib

/-!
# Batch local copy and upload of s5cmd (`core/op_local.go`)

A shallow embedding of `BatchLocalCopy` and `BatchLocalUpload`: the mode selection,
the trim prefix, the match producer (with the channel as the list of the items written
to it) and the sub-job factory, together with the library functions they call
(`path.Dir`, `filepath.Base`, `filepath.Join`, `filepath.Walk`, `strings.Index`,
`strings.IndexAny`, `strings.HasSuffix`).

Go strings are modelled as lists of characters. Every comparison the program makes is
against an ASCII character (the separator, the dot, a wildcard character) or a whole string,
and an index is only used to cut the string where it was found, so the strings computed are
those of the byte-indexed Go functions.
-/

namespace S5cmd

/-! ## The model -/

/-- A Go string, as the list of its characters. -/
abbrev GoString := List Char

/-- The value of `string(filepath.Separator)` on the hosts s5cmd is built for. -/
def Separator : Char := '/'

namespace strings

/-- Go `strings.IndexAny(s, chars)`: the index of the first character of `s` that occurs in
`chars`, or `-1`. -/
def IndexAny : GoString → GoString → Int
  | [], _ => -1
  | c :: s, chars =>
    if c ∈ chars then 0
    else
      let i := IndexAny s chars
      if i < 0 then -1 else i + 1

/-- Go `strings.Index(s, substr)`: the index of the first occurrence of `substr` in `s`,
or `-1`. -/
def Index : GoString → GoString → Int
  | [], substr => if substr = [] then 0 else -1
  | c :: s, substr =>
    if substr <+: c :: s then 0
    else
      let i := Index s substr
      if i < 0 then -1 else i + 1

/-- Go `strings.HasSuffix(s, suffix)`. -/
def HasSuffix (s suffix : GoString) : Bool := suffix.isSuffixOf s

/-- Go `strings.LastIndexByte(s, c)`: the index of the last `c` in `s`, or `-1`. -/
def LastIndexByte : GoString → Char → Int
  | [], _ => -1
  | x :: s, c =>
    let i := LastIndexByte s c
    if 0 ≤ i then i + 1 else if x = c then 0 else -1

end strings

namespace path

/-- The test `r == n || path[r] == '/'` of `Clean`, on the unread part of the input. -/
def atBoundary : GoString → Bool
  | [] => true
  | c :: _ => c = '/'

/-- The backtracking loop of `Clean` on a `..` element: after `out.w--`, the write index
drops while it is above `dotdot` and the byte under it is not a slash. The argument is the
write index after the first decrement. -/
def backtrack (out : GoString) (dotdot : Nat) : Nat → Nat
  | 0 => 0
  | w + 1 => if dotdot < w + 1 ∧ out.get? (w + 1) ≠ some '/' then backtrack out dotdot w else w + 1

/-- The slash `Clean` writes before a real path element:
`if rooted && out.w != 1 || !rooted && out.w != 0 then out.append('/')`. -/
def addSlash (rooted : Bool) (out : GoString) : GoString :=
  if (rooted ∧ out.length ≠ 1) ∨ (¬ rooted ∧ out.length ≠ 0) then out ++ ['/'] else out

/-- The main loop of Go `path.Clean`, on the unread input. The flag is set while the inner
loop copies a real path element. The result is the written buffer and `dotdot`. -/
def cleanLoop (rooted : Bool) : GoString → Bool → GoString → Nat → GoString × Nat
  | [], _, out, dotdot => (out, dotdot)
  | c :: rest, true, out, dotdot =>
    -- for ; r < n && path[r] != '/'; r++ { out.append(path[r]) }
    if c = '/' then cleanLoop rooted rest false out dotdot
    else cleanLoop rooted rest true (out ++ [c]) dotdot
  | c :: rest, false, out, dotdot =>
    if c = '/' then
      -- empty path element
      cleanLoop rooted rest false out dotdot
    else if c = '.' ∧ atBoundary rest then
      -- . element
      cleanLoop rooted rest false out dotdot
    else
      match rest with
      | [] =>
        -- real path element of one byte
        (addSlash rooted out ++ [c], dotdot)
      | c2 :: rest2 =>
        if c = '.' ∧ c2 = '.' ∧ atBoundary rest2 then
          -- .. element: remove to last /
          if dotdot < out.length then
            cleanLoop rooted rest2 false (out.take (backtrack out dotdot (out.length - 1))) dotdot
          else if ¬ rooted then
            let out2 := (if 0 < out.length then out ++ ['/'] else out) ++ ['.', '.']
            cleanLoop rooted rest2 false out2 out2.length
          else
            cleanLoop rooted rest2 false out dotdot
        else
          -- real path element
          cleanLoop rooted (c2 :: rest2) true (addSlash rooted out ++ [c]) dotdot

/-- Go `path.Clean` (and `filepath.Clean` where the separator is the slash). -/
def Clean (p : GoString) : GoString :=
  if p = [] then ['.']
  else
    let rooted : Bool := p.head? = some '/'
    let out :=
      if rooted then (cleanLoop rooted p.tail false ['/'] 1).1
      else (cleanLoop rooted p false [] 0).1
    if out.length = 0 then ['.'] else out

/-- Go `path.Split`: the path up to and with its last slash, and what follows. -/
def Split (p : GoString) : GoString × GoString :=
  let i := strings.LastIndexByte p '/'
  (p.take (i + 1).toNat, p.drop (i + 1).toNat)

/-- Go `path.Dir`. -/
def Dir (p : GoString) : GoString := Clean (Split p).1

end path

namespace filepath

/-- Go `filepath.Clean`: on a host whose separator is the slash it runs the loop of
`path.Clean` and returns its result unchanged (`FromSlash` is the identity). -/
def Clean (p : GoString) : GoString := path.Clean p

/-- Go `filepath.Base`: the last element of the path, trailing separators removed first;
`.` for the empty path and the separator for a path of separators only. -/
def Base (p : GoString) : GoString :=
  if p = [] then ['.']
  else
    -- Strip trailing slashes.
    let p1 := p.rdropWhile (fun c => c = Separator)
    -- Find the last element
    let i := strings.LastIndexByte p1 Separator
    let p2 := if 0 ≤ i then p1.drop (i + 1).toNat else p1
    -- If empty now, it had only slashes.
    if p2 = [] then [Separator] else p2

/-- Go `filepath.Dir`: all but the last element of the path, cleaned. -/
def Dir (p : GoString) : GoString :=
  let i := strings.LastIndexByte p Separator
  Clean (p.take (i + 1).toNat)

/-- Go `filepath.Join` of two elements: empty elements are ignored, the rest is joined by the
separator and cleaned. -/
def Join (a b : GoString) : GoString :=
  if a ≠ [] then Clean (a ++ Separator :: b)
  else if b ≠ [] then Clean b
  else []

end filepath

/-! ### Errors and the host file system -/

/-- Go error values the batch operations meet. -/
inductive GoError where
  /-- The value `filepath.SkipDir`. -/
  | SkipDir
  /-- The value `filepath.ErrBadPattern`. -/
  | ErrBadPattern
  /-- An error of the host (`*os.PathError`), with its text. -/
  | PathError (text : GoString)
  /-- An error made by `errors.New` or `fmt.Errorf`, with its text. -/
  | New (text : GoString)
  deriving DecidableEq

instance {ε α : Type} [DecidableEq ε] [DecidableEq α] : DecidableEq (Except ε α)
  | .ok a, .ok b => if h : a = b then isTrue (by rw [h]) else isFalse (by simpa using h)
  | .error a, .error b => if h : a = b then isTrue (by rw [h]) else isFalse (by simpa using h)
  | .ok _, .error _ => isFalse (by simp)
  | .error _, .ok _ => isFalse (by simp)

/-- How a piece of Go code ends: it returns a value, or it faults on a nil dereference. -/
inductive Outcome (α : Type) where
  | ret (a : α)
  | fault
  deriving DecidableEq

/-- What `os.Lstat` and the reading of directory names report beneath a path, as far as
`filepath.Walk` looks. -/
inductive FileTree where
  /-- `os.Lstat` fails on the path. -/
  | noent (text : GoString)
  /-- The path is not a directory. -/
  | file
  /-- A directory whose names can be read, in the order `readDirNames` returns them. -/
  | dir (entries : List (GoString × FileTree))
  /-- A directory whose names cannot be read. -/
  | unreadable (text : GoString)

/-- The `IsDir()` of the `os.FileInfo` of a node that has one. -/
def FileTree.IsDir : FileTree → Bool
  | .dir _ => true
  | .unreadable _ => true
  | _ => false

/-- The answers of the host file system the batch operations depend on. -/
structure Host where
  /-- Go `os.Stat`: `none` when it returns an error, else `IsDir()` of the file info. -/
  Stat : GoString → Option Bool
  /-- Go `filepath.Glob`: the matches, or the error. -/
  Glob : GoString → Except GoError (List GoString)
  /-- What `filepath.Walk` finds at and beneath a root. -/
  tree : GoString → FileTree

/-- The type of a `filepath.WalkFunc` that acts on a state: path, file info (`none` for nil,
else its `IsDir()`), incoming error. -/
abbrev WalkFunc (σ : Type) :=
  GoString → Option Bool → Option GoError → σ → σ × Outcome (Option GoError)

namespace filepath

mutual
/-- The recursive `walk` of Go `filepath.Walk`. -/
def walk {σ : Type} (walkFn : WalkFunc σ) (p : GoString) : FileTree → σ → σ × Outcome (Option GoError)
  | .noent text, s => walkFn p none (some (.PathError text)) s
  | .file, s => walkFn p (some false) none s
  | .unreadable text, s =>
    -- names, err := readDirNames(path); err1 := walkFn(path, info, err); return err1
    walkFn p (some true) (some (.PathError text)) s
  | .dir entries, s =>
    match walkFn p (some true) none s with
    | (s1, .ret none) => walkNames walkFn p entries s1
    | r => r
/-- The loop `for _, name := range names` of `walk`. -/
def walkNames {σ : Type} (walkFn : WalkFunc σ) (p : GoString) :
    List (GoString × FileTree) → σ → σ × Outcome (Option GoError)
  | [], s => (s, .ret none)
  | (name, t) :: rest, s =>
    let filename := Join p name
    match t with
    | .noent text =>
      match walkFn filename none (some (.PathError text)) s with
      | (s1, .ret (some e)) => if e ≠ .SkipDir then (s1, .ret (some e)) else walkNames walkFn p rest s1
      | (s1, .ret none) => walkNames walkFn p rest s1
      | (s1, .fault) => (s1, .fault)
    | t =>
      match walk walkFn filename t s with
      | (s1, .ret (some e)) =>
        if ¬ t.IsDir ∨ e ≠ .SkipDir then (s1, .ret (some e)) else walkNames walkFn p rest s1
      | (s1, .ret none) => walkNames walkFn p rest s1
      | (s1, .fault) => (s1, .fault)
end

/-- Go `filepath.Walk`. -/
def Walk {σ : Type} (h : Host) (root : GoString) (walkFn : WalkFunc σ) (s : σ) :
    σ × Outcome (Option GoError) :=
  match walk walkFn root (h.tree root) s with
  | (s1, .ret (some .SkipDir)) => (s1, .ret none)
  | r => r

end filepath

/-! ### Jobs, the channel and the batch entry points -/

/-- The argument of an operation: the path or URI string. The optional remote-location
handle is not modelled. -/
structure JobArgument where
  arg : GoString
  deriving DecidableEq

/-- The options of a batch command this file consults, with the parameter string
`GetParams()` returns. -/
structure OptionList where
  DeleteSource : Bool
  Recursive : Bool
  Parents : Bool
  params : GoString
  deriving DecidableEq

/-- The operation kinds the two batch entry points hand to their sub-jobs. -/
inductive Operation where
  | LocalCopy
  | Upload
  deriving DecidableEq

/-- A job as `MakeSubJob` builds it: sub-command text, operation, arguments, options. -/
structure Job where
  command : GoString
  operation : Operation
  args : List JobArgument
  opts : OptionList
  deriving DecidableEq

/-- The batch job as the entry points read it: `job.args[0]`, `job.args[1]`, `job.opts`. -/
structure BatchJob where
  args0 : JobArgument
  args1 : JobArgument
  opts : OptionList

/-- Modelled from the spec: `NewJobArgument(s, nil)`, declared outside this file, wraps a
path string as an operation argument without a remote handle. -/
def NewJobArgument (s : GoString) : JobArgument := ⟨s⟩

/-- Modelled from the spec: `JobArgument.Clone`, declared outside this file, gives an
independent copy of the argument. -/
def JobArgument.Clone (a : JobArgument) : JobArgument := ⟨a.arg⟩

/-- Modelled from the spec: `JobArgument.Append`, declared outside this file, derives a new
argument by appending a path segment. -/
def JobArgument.Append (a : JobArgument) (s : GoString) : JobArgument := ⟨a.arg ++ s⟩

/-- Modelled from the spec: `Job.MakeSubJob`, declared outside this file, builds the leaf
job from the sub-command, the operation, the two arguments and the options of the batch. -/
def BatchJob.MakeSubJob (_job : BatchJob) (subCmd : GoString) (operation : Operation)
    (args : List JobArgument) (opts : OptionList) : Job :=
  ⟨subCmd, operation, args, opts⟩

/-- An item on the channel: a pointer to a path, or nil (the end of the stream). -/
abbrev Item := Option GoString

/-- What the callback of a batch does for one item: the job it returns (if any) and the
directories it passes to `os.MkdirAll`. -/
abbrev Made := Option Job × List GoString

/-- The observable run of a batch entry point. -/
structure Batch where
  /-- The items the producer wrote to the channel, in order. -/
  written : List Item
  /-- The sub-jobs the callback built, in order. -/
  jobs : List Job
  /-- The directories passed to `os.MkdirAll`, in order. -/
  mkdirs : List GoString
  /-- The error of the response (`jobResponse(err)`), unless the run faulted. -/
  response : Outcome (Option GoError)
  deriving DecidableEq

/-- Modelled from the spec: the consumer side of `wildOperationLocal`. The callback runs on
each item read from the channel up to and with the first nil, after which nothing is read. -/
def drain (callback : Item → Made) : List Item → List Job × List GoString
  | [] => ([], [])
  | none :: _ => ((callback none).1.toList, (callback none).2)
  | some p :: rest =>
    ((callback (some p)).1.toList ++ (drain callback rest).1,
      (callback (some p)).2 ++ (drain callback rest).2)

/-- Modelled from the spec: `wildOperationLocal`, declared outside this file, runs the
producer on a fresh channel and the callback on every item read up to the sentinel, and
returns the error of the producer. -/
def wildOperationLocal (lister : List Item → List Item × Outcome (Option GoError))
    (callback : Item → Made) : Batch :=
  let run := lister []
  { written := run.1
    jobs := (drain callback run.1).1
    mkdirs := (drain callback run.1).2
    response := run.2 }

/-- The local variables of `BatchLocalCopy` its producer and callback close over, once the
mode is selected. -/
structure CopyLocals where
  subCmd : GoString
  walkMode : Bool
  trimPrefix : GoString
  globStart : GoString
  recurse : Bool
  deriving DecidableEq

/-- The local variables of `BatchLocalUpload` its producer and callback close over, once the
mode is selected. -/
structure UploadLocals where
  subCmd : GoString
  walkMode : Bool
  trimPrefix : GoString
  deriving DecidableEq

/-- The walk callback of both entry points: an incoming error is returned, a directory is
passed over, any other path is written to the channel. -/
def emitFile : WalkFunc (List Item) := fun p st err ch =>
  match err with
  | some e => (ch, .ret (some e))
  | none =>
    match st with
    | none => (ch, .fault)
    | some true => (ch, .ret none)
    | some false => (ch ++ [some p], .ret none)

/-- The start of `BatchLocalCopy` (lines 46 to 76 of `core/op_local.go`): sub-command, mode,
trim prefix, glob start. The error is the one of the early return. -/
def BatchLocalCopy.select (GlobCharacters : GoString) (h : Host) (job : BatchJob) :
    Except GoError CopyLocals :=
  let subCmd := (if job.opts.DeleteSource then "mv".toList else "cp".toList) ++ job.opts.params
  -- st, err := os.Stat(job.args[0].arg); walkMode := err == nil && st.IsDir()
  let walkMode : Bool := h.Stat job.args0.arg = some true
  let trimPrefix := job.args0.arg
  let globStart := job.args0.arg
  if ¬ walkMode then
    let loc := strings.IndexAny trimPrefix GlobCharacters
    if loc < 0 then
      .error (.New ("internal error, not a glob: ".toList ++ trimPrefix))
    else
      let trimPrefix := trimPrefix.take loc.toNat
      let trimPrefix := path.Dir trimPrefix
      let trimPrefix := if trimPrefix = ['.'] then [] else trimPrefix ++ [Separator]
      .ok ⟨subCmd, walkMode, trimPrefix, globStart, job.opts.Recursive⟩
  else
    let globStart := if ¬ strings.HasSuffix globStart [Separator] then globStart ++ [Separator] else globStart
    let globStart := globStart ++ ['*']
    let trimPrefix := path.Dir trimPrefix
    let trimPrefix := if trimPrefix = ['.'] then [] else trimPrefix ++ [Separator]
    .ok ⟨subCmd, walkMode, trimPrefix, globStart, job.opts.Recursive⟩

/-- The loop `for _, f := range ma` of the producer of `BatchLocalCopy`. -/
def BatchLocalCopy.range (h : Host) (recurse : Bool) :
    List GoString → List Item → List Item × Outcome (Option GoError)
  | [], ch => (ch, .ret none)
  | f :: ma, ch =>
    -- st, _ := os.Stat(s)
    match h.Stat f with
    | none => (ch, .fault)
    | some false => BatchLocalCopy.range h recurse ma (ch ++ [some f])
    | some true =>
      if recurse then
        match filepath.Walk h f emitFile ch with
        | (ch1, .ret none) => BatchLocalCopy.range h recurse ma ch1
        | (ch1, .ret (some e)) => (ch1, .ret (some e))
        | (ch1, .fault) => (ch1, .fault)
      else BatchLocalCopy.range h recurse ma ch

/-- The producer of `BatchLocalCopy` before its deferred send. -/
def BatchLocalCopy.enumerate (h : Host) (sel : CopyLocals) (ch : List Item) :
    List Item × Outcome (Option GoError) :=
  match h.Glob sel.globStart with
  | .error e => (ch, .ret (some e))
  | .ok ma =>
    if ma.length = 0 then
      if sel.walkMode then (ch, .ret none)
      else (ch, .ret (some (.New "could not find match for glob".toList)))
    else BatchLocalCopy.range h sel.recurse ma ch

/-- The producer of `BatchLocalCopy`: the enumeration, then the deferred `ch <- nil`, which
runs on every way out. -/
def BatchLocalCopy.lister (h : Host) (sel : CopyLocals) (ch : List Item) :
    List Item × Outcome (Option GoError) :=
  ((BatchLocalCopy.enumerate h sel ch).1 ++ [none], (BatchLocalCopy.enumerate h sel ch).2)

/-- The destination name `dstFn` the callback of `BatchLocalCopy` computes for a path. -/
def BatchLocalCopy.dstFn (job : BatchJob) (sel : CopyLocals) (fn : GoString) : GoString :=
  if job.opts.Parents then
    if strings.Index fn sel.trimPrefix = 0 then fn.drop sel.trimPrefix.length else fn
  else filepath.Base fn

/-- The callback of `BatchLocalCopy`: destination name, the two arguments, the directory of
the destination (created with `os.MkdirAll`), the sub-job. -/
def BatchLocalCopy.callback (job : BatchJob) (sel : CopyLocals) : Item → Made
  | none => (none, [])
  | some fn =>
    let dstFn := BatchLocalCopy.dstFn job sel fn
    let arg1 := NewJobArgument fn
    let arg2 := job.args1.Clone.Append dstFn
    let dir := filepath.Dir arg2.arg
    (some (job.MakeSubJob sel.subCmd .LocalCopy [arg1, arg2] job.opts), [dir])

/-- Go `BatchLocalCopy`, with the constant `GlobCharacters` (declared outside this file) as
a parameter. The operation type of the result is always `stats.FileOp` and is left out. -/
def BatchLocalCopy (GlobCharacters : GoString) (h : Host) (job : BatchJob) : Batch :=
  match BatchLocalCopy.select GlobCharacters h job with
  | .error e => { written := [], jobs := [], mkdirs := [], response := .ret (some e) }
  | .ok sel => wildOperationLocal (BatchLocalCopy.lister h sel) (BatchLocalCopy.callback job sel)

/-- The start of `BatchLocalUpload` (lines 148 to 170 of `core/op_local.go`): sub-command,
mode, trim prefix. There is no glob start and the recursive option is not read. -/
def BatchLocalUpload.select (GlobCharacters : GoString) (h : Host) (job : BatchJob) :
    Except GoError UploadLocals :=
  let subCmd := (if job.opts.DeleteSource then "mv".toList else "cp".toList) ++ job.opts.params
  let walkMode : Bool := h.Stat job.args0.arg = some true
  let trimPrefix := job.args0.arg
  if ¬ walkMode then
    let loc := strings.IndexAny trimPrefix GlobCharacters
    if loc < 0 then
      .error (.New ("internal error, not a glob: ".toList ++ trimPrefix))
    else
      let trimPrefix := trimPrefix.take loc.toNat
      let trimPrefix := path.Dir trimPrefix
      let trimPrefix := if trimPrefix = ['.'] then [] else trimPrefix ++ [Separator]
      .ok ⟨subCmd, walkMode, trimPrefix⟩
  else
    let trimPrefix := path.Dir trimPrefix
    let trimPrefix := if trimPrefix = ['.'] then [] else trimPrefix ++ [Separator]
    .ok ⟨subCmd, walkMode, trimPrefix⟩

/-- The loop `for _, f := range ma` of the producer of `BatchLocalUpload`. -/
def BatchLocalUpload.range (h : Host) : List GoString → List Item → List Item × Outcome (Option GoError)
  | [], ch => (ch, .ret none)
  | f :: ma, ch =>
    -- st, _ = os.Stat(s)
    match h.Stat f with
    | none => (ch, .fault)
    | some false => BatchLocalUpload.range h ma (ch ++ [some f])
    | some true => BatchLocalUpload.range h ma ch

/-- The producer of `BatchLocalUpload` before its deferred send. -/
def BatchLocalUpload.enumerate (h : Host) (job : BatchJob) (sel : UploadLocals) (ch : List Item) :
    List Item × Outcome (Option GoError) :=
  if sel.walkMode then
    filepath.Walk h job.args0.arg emitFile ch
  else
    match h.Glob job.args0.arg with
    | .error e => (ch, .ret (some e))
    | .ok ma =>
      if ma.length = 0 then (ch, .ret (some (.New "could not find match for glob".toList)))
      else BatchLocalUpload.range h ma ch

/-- The producer of `BatchLocalUpload`: the enumeration, then the deferred `ch <- nil`. -/
def BatchLocalUpload.lister (h : Host) (job : BatchJob) (sel : UploadLocals) (ch : List Item) :
    List Item × Outcome (Option GoError) :=
  ((BatchLocalUpload.enumerate h job sel ch).1 ++ [none], (BatchLocalUpload.enumerate h job sel ch).2)

/-- The destination name `dstFn` the callback of `BatchLocalUpload` computes for a path. -/
def BatchLocalUpload.dstFn (job : BatchJob) (sel : UploadLocals) (fn : GoString) : GoString :=
  if job.opts.Parents then
    if strings.Index fn sel.trimPrefix = 0 then fn.drop sel.trimPrefix.length else fn
  else filepath.Base fn

/-- The callback of `BatchLocalUpload`: destination name, the two arguments, the sub-job. -/
def BatchLocalUpload.callback (job : BatchJob) (sel : UploadLocals) : Item → Made
  | none => (none, [])
  | some fn =>
    let dstFn := BatchLocalUpload.dstFn job sel fn
    let arg1 := NewJobArgument fn
    let arg2 := job.args1.Clone.Append dstFn
    (some (job.MakeSubJob sel.subCmd .Upload [arg1, arg2] job.opts), [])

/-- Go `BatchLocalUpload`, with the constant `GlobCharacters` as a parameter. -/
def BatchLocalUpload (GlobCharacters : GoString) (h : Host) (job : BatchJob) : Batch :=
  match BatchLocalUpload.select GlobCharacters h job with
  | .error e => { written := [], jobs := [], mkdirs := [], response := .ret (some e) }
  | .ok sel =>
    wildOperationLocal (BatchLocalUpload.lister h job sel) (BatchLocalUpload.callback job sel)

/-- A path element that names an entry: not empty, without a separator, and neither `.` nor
`..`. -/
def IsName (s : GoString) : Prop := s ≠ [] ∧ '/' ∉ s ∧ s ≠ ['.'] ∧ s ≠ ['.', '.']

instance (s : GoString) : Decidable (IsName s) := by
  unfold IsName; infer_instance

/-! ### The enumeration as the list of the answers of the host

The second description of the producers, against which the embedded code is compared: the
answers of the host in the order the enumeration meets them, the paths before the first
answer that is not a path, and the way the enumeration ends. -/

/-- One answer of the host in the order an enumeration meets them. -/
inductive Visit where
  /-- A path that is not a directory. -/
  | found (p : GoString)
  /-- An error that the enumeration returns. -/
  | failed (e : GoError)
  /-- A glob match on which `os.Stat` fails, so that its file info is nil. -/
  | nilInfo
  deriving DecidableEq

mutual
/-- The entries at and beneath a path in the order `filepath.Walk` meets them, directories
left out. -/
def FileTree.visits (p : GoString) : FileTree → List Visit
  | .noent text => [.failed (.PathError text)]
  | .file => [.found p]
  | .unreadable text => [.failed (.PathError text)]
  | .dir entries => FileTree.visitsNames p entries
/-- The entries beneath a directory, name by name. -/
def FileTree.visitsNames (p : GoString) : List (GoString × FileTree) → List Visit
  | [] => []
  | (name, t) :: rest => FileTree.visits (filepath.Join p name) t ++ FileTree.visitsNames p rest
end

/-- The paths met before the first answer that is not a path. -/
def foundBefore : List Visit → List GoString
  | .found p :: vs => p :: foundBefore vs
  | _ => []

/-- The first answer that is not a path, as the way the enumeration ends: the error
returned, a fault on a nil file info, or nil when every answer is a path. -/
def stopOf : List Visit → Outcome (Option GoError)
  | [] => .ret none
  | .found _ :: vs => stopOf vs
  | .failed e :: _ => .ret (some e)
  | .nilInfo :: _ => .fault

/-- The answers the producer of `BatchLocalCopy` meets for one glob match. -/
def BatchLocalCopy.visitsMatch (h : Host) (recurse : Bool) (f : GoString) : List Visit :=
  match h.Stat f with
  | none => [.nilInfo]
  | some false => [.found f]
  | some true => if recurse then (h.tree f).visits f else []

/-- The answers the producer of `BatchLocalCopy` meets, in order. -/
def BatchLocalCopy.visits (h : Host) (sel : CopyLocals) : List Visit :=
  match h.Glob sel.globStart with
  | .error e => [.failed e]
  | .ok [] => if sel.walkMode then [] else [.failed (.New "could not find match for glob".toList)]
  | .ok ma => ma.flatMap (BatchLocalCopy.visitsMatch h sel.recurse)

/-- The answers the producer of `BatchLocalUpload` meets for one glob match. -/
def BatchLocalUpload.visitsMatch (h : Host) (f : GoString) : List Visit :=
  match h.Stat f with
  | none => [.nilInfo]
  | some false => [.found f]
  | some true => []

/-- The answers the producer of `BatchLocalUpload` meets, in order. -/
def BatchLocalUpload.visits (h : Host) (job : BatchJob) (sel : UploadLocals) : List Visit :=
  if sel.walkMode then (h.tree job.args0.arg).visits job.args0.arg
  else
    match h.Glob job.args0.arg with
    | .error e => [.failed e]
    | .ok [] => [.failed (.New "could not find match for glob".toList)]
    | .ok ma => ma.flatMap (BatchLocalUpload.visitsMatch h)

/-! ### An example host -/

/-- The wildcard characters used in the examples. -/
def wildcards : GoString := "?*[".toList

/-- The directories of the example host, as `os.Stat` sees them. The links `ln` and `s/ln`
point to a directory, and `os.Stat` follows them. -/
def demoDirs : List String :=
  ["src", "src/sub", "/a", "/a/b", "/a/b/", "/a/b/c", "empty", "d", "u", "u/a", "u/a/locked",
    "e[", "x*", "xy", "ln", "s", "s/ln"]

/-- The files of the example host, as `os.Stat` sees them. The link `d/link` points nowhere
and is in neither list. -/
def demoFiles : List String :=
  ["src/x.txt", "src/sub/y.txt", "/x.txt", "/a/b/c/d.txt", "u/a/a.txt", "u/a/z.txt", "xy/f.txt"]

/-- The glob expansions of the example host, names sorted; every other pattern but those of
`demoBadPatterns` has no match. The pattern `x*/*` reaches into the directory `xy`. -/
def demoGlobs : List (String × List String) :=
  [("src/*", ["src/sub", "src/x.txt"]), ("/*", ["/a", "/x.txt"]), ("/a/../*", ["/a", "/x.txt"]),
    ("/a/*", ["/a/b"]), ("/a/b/*", ["/a/b/c"]), ("d/*", ["d/link"]), ("u/*", ["u/a"]),
    ("x*/*", ["xy/f.txt"]), ("s/*", ["s/ln"])]

/-- The patterns on which the glob expansion of the example host returns
`filepath.ErrBadPattern`: the bracket of `e[/*` is not closed. -/
def demoBadPatterns : List String := ["e[/*"]

/-- The trees of the example host, as `filepath.Walk` sees them from a root. The directory
`u/a/locked` cannot be read; the directories `empty`, `e[` and `x*` have no entries; the
links `ln` and `s/ln` are not directories for `os.Lstat`. -/
def demoTrees : List (String × FileTree) :=
  [("src", .dir [("sub".toList, .dir [("y.txt".toList, .file)]), ("x.txt".toList, .file)]),
    ("src/sub", .dir [("y.txt".toList, .file)]),
    ("/a", .dir [("b".toList, .dir [("c".toList, .dir [("d.txt".toList, .file)])])]),
    ("/a/b", .dir [("c".toList, .dir [("d.txt".toList, .file)])]),
    ("/a/b/", .dir [("c".toList, .dir [("d.txt".toList, .file)])]),
    ("/a/b/c", .dir [("d.txt".toList, .file)]),
    ("empty", .dir []),
    ("u/a", .dir [("a.txt".toList, .file),
      ("locked".toList, .unreadable "permission denied".toList), ("z.txt".toList, .file)]),
    ("e[", .dir []), ("x*", .dir []), ("xy", .dir [("f.txt".toList, .file)]),
    ("ln", .file), ("s", .dir [("ln".toList, .file)]), ("s/ln", .file)]

/-- An example host. Its root directory holds `a/b/c/d.txt` and `x.txt`; its working
directory holds `src/x.txt`, `src/sub/y.txt`, the empty directory `empty`, the dangling
link `d/link`, `u/a` with the file `a.txt`, the unreadable directory `locked` and the
file `z.txt`, the empty directories `e[` and `x*`, the directory `xy` with the file `f.txt`,
and the links `ln` and `s/ln` to a directory. -/
def demo : Host where
  Stat := fun p =>
    if demoDirs.any (fun s => s.toList = p) then some true
    else if demoFiles.any (fun s => s.toList = p) then some false
    else none
  Glob := fun p =>
    if demoBadPatterns.any (fun s => s.toList = p) then .error .ErrBadPattern
    else
      match demoGlobs.find? (fun g => g.1.toList = p) with
      | some g => .ok (g.2.map String.toList)
      | none => .ok []
  tree := fun p =>
    match demoTrees.find? (fun g => g.1.toList = p) with
    | some g => g.2
    | none => .noent "no such file or directory".toList

/-- A batch job from its two operands and the options recursive and parents. -/
def demoJob (src dst : String) (recursive parents : Bool) : BatchJob :=
  ⟨⟨src.toList⟩, ⟨dst.toList⟩, ⟨false, recursive, parents, []⟩⟩

/-- The paths of the arguments of each job, as strings. -/
def argsOf (jobs : List Job) : List (List String) :=
  jobs.map (fun j => j.args.map (fun a => String.mk a.arg))

/-- The paths written to the channel, as strings, `none` for the nil. -/
def itemsOf (items : List Item) : List (Option String) :=
  items.map (fun i => i.map String.mk)

/-! ### Shorthands of the statements -/

/-- The trim prefix both entry points derive from the part of the operand they keep: its
directory with a separator, or nothing when the directory is `.`. -/
def trimOf (kept : GoString) : GoString :=
  if path.Dir kept = ['.'] then [] else path.Dir kept ++ [Separator]

/-- The sub-command of the sub-jobs: `mv` when the source is deleted, else `cp`, with the
parameters. -/
def subCmdOf (job : BatchJob) : GoString :=
  (if job.opts.DeleteSource then "mv".toList else "cp".toList) ++ job.opts.params

/-- How an enumeration that meets the answers `vs` leaves the channel and ends. -/
def ran (vs : List Visit) (ch : List Item) : List Item × Outcome (Option GoError) :=
  (ch ++ (foundBefore vs).map some, stopOf vs)

/-- The sub-job `BatchLocalCopy` builds for a path. -/
def BatchLocalCopy.subJob (job : BatchJob) (sel : CopyLocals) (p : GoString) : Job :=
  job.MakeSubJob sel.subCmd .LocalCopy
    [NewJobArgument p, job.args1.Clone.Append (BatchLocalCopy.dstFn job sel p)] job.opts

/-- The sub-job `BatchLocalUpload` builds for a path. -/
def BatchLocalUpload.subJob (job : BatchJob) (sel : UploadLocals) (p : GoString) : Job :=
  job.MakeSubJob sel.subCmd .Upload
    [NewJobArgument p, job.args1.Clone.Append (BatchLocalUpload.dstFn job sel p)] job.opts

/-- The error of a glob without a match. -/
def noMatch : GoError := .New "could not find match for glob".toList

/-- The buffer the loop of `Clean` has written when the input ends. -/
def path.cleaned (p : GoString) : GoString :=
  if p.head? = some '/' then (path.cleanLoop true p.tail false ['/'] 1).1
  else (path.cleanLoop false p false [] 0).1

/-! ## Properties -/

namespace path

theorem atBoundary_append_slash (xs ys : GoString) :
    atBoundary (xs ++ '/' :: ys) = atBoundary xs := by
  cases xs <;> simp [atBoundary]

theorem cleanLoop_slash (rooted m : Bool) (rest out : GoString) (dotdot : Nat) :
    cleanLoop rooted ('/' :: rest) m out dotdot = cleanLoop rooted rest false out dotdot := by
  cases m
  · cases rest <;> simp [cleanLoop]
  · simp [cleanLoop]

theorem cleanLoop_dot (rooted : Bool) (rest out : GoString) (dotdot : Nat)
    (hb : atBoundary rest = true) :
    cleanLoop rooted ('.' :: rest) false out dotdot = cleanLoop rooted rest false out dotdot := by
  cases rest <;> simp_all [cleanLoop]

theorem cleanLoop_dotdot (rooted : Bool) (rest out : GoString) (dotdot : Nat)
    (hb : atBoundary rest = true) :
    cleanLoop rooted ('.' :: '.' :: rest) false out dotdot =
      if dotdot < out.length then
        cleanLoop rooted rest false (out.take (backtrack out dotdot (out.length - 1))) dotdot
      else if ¬ rooted then
        cleanLoop rooted rest false ((if 0 < out.length then out ++ ['/'] else out) ++ ['.', '.'])
          ((if 0 < out.length then out ++ ['/'] else out) ++ ['.', '.']).length
      else cleanLoop rooted rest false out dotdot := by
  rw [cleanLoop.eq_4]
  have h1 : ¬ ('.' = '.' ∧ atBoundary ('.' :: rest) = true) := by simp [atBoundary]
  rw [if_neg (by decide), if_neg h1, if_pos ⟨rfl, rfl, hb⟩]

/-- The first byte of a real path element: the slash is added if needed and the byte is
copied. -/
theorem cleanLoop_real (rooted : Bool) (c : Char) (rest out : GoString) (dotdot : Nat)
    (hc : c ≠ '/') (h1 : ¬ (c = '.' ∧ atBoundary rest = true))
    (h2 : ∀ rest2, rest = '.' :: rest2 → ¬ (c = '.' ∧ atBoundary rest2 = true)) :
    cleanLoop rooted (c :: rest) false out dotdot =
      cleanLoop rooted rest true (addSlash rooted out ++ [c]) dotdot := by
  cases rest with
  | nil => simp_all [cleanLoop]
  | cons c2 rest2 =>
    rw [cleanLoop.eq_4]
    rw [if_neg hc, if_neg h1]
    have : ¬ (c = '.' ∧ c2 = '.' ∧ atBoundary rest2 = true) := by
      rintro ⟨hc1, hc2, hb⟩
      exact h2 rest2 (by rw [hc2]) ⟨hc1, hb⟩
    rw [if_neg this]

/-- Reading up to a slash and then the rest is reading the whole input: the loop never looks
past the next slash. -/
theorem cleanLoop_append_slash (rooted : Bool) (ys : GoString) :
    ∀ (n : Nat) (xs : GoString), xs.length ≤ n → ∀ (m : Bool) (out : GoString) (dotdot : Nat),
      cleanLoop rooted (xs ++ '/' :: ys) m out dotdot =
        cleanLoop rooted ys false (cleanLoop rooted xs m out dotdot).1
          (cleanLoop rooted xs m out dotdot).2 := by
  intro n
  induction n with
  | zero =>
    intro xs hx m out dotdot
    have : xs = [] := List.length_eq_zero.mp (Nat.le_zero.mp hx)
    subst this
    simp [cleanLoop_slash, cleanLoop]
  | succ n ih =>
    intro xs hx m out dotdot
    match xs, hx with
    | [], _ => simp [cleanLoop_slash, cleanLoop]
    | c :: rest, hx =>
      have hrest : rest.length ≤ n := by simpa using hx
      cases m with
      | true =>
        simp only [List.cons_append, cleanLoop]
        split
        · exact ih rest hrest _ _ _
        · exact ih rest hrest _ _ _
      | false =>
        rw [List.cons_append]
        by_cases hc : c = '/'
        · subst hc
          rw [cleanLoop_slash, cleanLoop_slash]
          exact ih rest hrest _ _ _
        · by_cases h1 : c = '.' ∧ atBoundary rest = true
          · obtain ⟨hd, hb⟩ := h1
            subst hd
            rw [cleanLoop_dot _ _ _ _ hb,
              cleanLoop_dot _ _ _ _ (by rw [atBoundary_append_slash]; exact hb)]
            exact ih rest hrest _ _ _
          · by_cases h2 : ∃ rest2, rest = '.' :: rest2 ∧ c = '.' ∧ atBoundary rest2 = true
            · obtain ⟨rest2, hr, hd, hb⟩ := h2
              subst hr hd
              have hrest2 : rest2.length ≤ n := by
                simp at hrest; omega
              rw [List.cons_append, cleanLoop_dotdot _ _ _ _ hb,
                cleanLoop_dotdot _ _ _ _ (by rw [atBoundary_append_slash]; exact hb)]
              split
              · exact ih rest2 hrest2 _ _ _
              · split
                · exact ih rest2 hrest2 _ _ _
                · exact ih rest2 hrest2 _ _ _
            · rw [cleanLoop_real _ _ _ _ _ hc h1
                  (fun rest2 hr hh => h2 ⟨rest2, hr, hh.1, hh.2⟩),
                cleanLoop_real _ _ _ _ _ hc (by rw [atBoundary_append_slash]; exact h1)]
              · exact ih rest hrest _ _ _
              · intro rest2 hr hh
                cases rest with
                | nil =>
                  simp at hr
                | cons c2 rest3 =>
                  simp at hr
                  obtain ⟨hc2, hr3⟩ := hr
                  subst hc2 hr3
                  rw [atBoundary_append_slash] at hh
                  exact h2 ⟨rest3, rfl, hh.1, hh.2⟩

/-- The inner loop copies an element without a separator to the end of the input. -/
theorem cleanLoop_copy (rooted : Bool) (xs : GoString) (hx : '/' ∉ xs) :
    ∀ (out : GoString) (dotdot : Nat), cleanLoop rooted xs true out dotdot = (out ++ xs, dotdot) := by
  induction xs with
  | nil => intro out dotdot; simp [cleanLoop]
  | cons c rest ih =>
    intro out dotdot
    have hc : c ≠ '/' := fun hc => hx (by simp [hc])
    have hr : '/' ∉ rest := fun hr => hx (by simp [hr])
    rw [cleanLoop.eq_2, if_neg hc, ih hr]
    simp

/-- A named element is written after the slash it needs. -/
theorem cleanLoop_name (rooted : Bool) (name : GoString) (hn : IsName name)
    (out : GoString) (dotdot : Nat) :
    cleanLoop rooted name false out dotdot = (addSlash rooted out ++ name, dotdot) := by
  obtain ⟨hne, hs, hd, hdd⟩ := hn
  cases name with
  | nil => exact absurd rfl hne
  | cons c rest =>
    have hc : c ≠ '/' := fun hc => hs (by simp [hc])
    have hr : '/' ∉ rest := fun hr => hs (by simp [hr])
    have hb : ∀ l : GoString, '/' ∉ l → atBoundary l = true → l = [] := by
      intro l hl hb
      cases l with
      | nil => rfl
      | cons x l => simp [atBoundary] at hb; subst hb; simp at hl
    rw [cleanLoop_real _ _ _ _ _ hc, cleanLoop_copy _ _ hr]
    · simp
    · rintro ⟨h1, h2⟩
      rw [hb rest hr h2, h1] at hd
      exact hd rfl
    · rintro rest2 h0 ⟨h1, h2⟩
      subst h0
      have : '/' ∉ rest2 := fun hh => hr (by simp [hh])
      rw [hb rest2 this h2, h1] at hdd
      exact hdd rfl

/-- A trailing slash does not change the result of `Clean` on a path that is not empty. -/
theorem Clean_append_slash (p : GoString) (hp : p ≠ []) : Clean (p ++ ['/']) = Clean p := by
  cases p with
  | nil => exact absurd rfl hp
  | cons c rest =>
    unfold Clean
    simp only [List.cons_append, List.head?_cons, List.tail_cons, reduceCtorEq, if_false]
    have e := fun m out dotdot => cleanLoop_append_slash (decide (some c = some '/')) [] (c :: rest).length (c :: rest) le_rfl m out dotdot
    have e2 := fun m out dotdot => cleanLoop_append_slash (decide (some c = some '/')) [] rest.length rest le_rfl m out dotdot
    simp only [List.cons_append, cleanLoop.eq_1] at e e2
    rw [e, e2]

end path

namespace strings

theorem LastIndexByte_of_not_mem (s : GoString) (c : Char) (h : c ∉ s) :
    LastIndexByte s c = -1 := by
  induction s with
  | nil => simp [LastIndexByte]
  | cons x s ih =>
    have hx : x ≠ c := fun hx => h (by simp [hx])
    have hs : c ∉ s := fun hs => h (by simp [hs])
    simp [LastIndexByte, ih hs, hx]

theorem LastIndexByte_append (s t : GoString) (c : Char) (h : c ∉ t) :
    LastIndexByte (s ++ c :: t) c = s.length := by
  induction s with
  | nil => simp [LastIndexByte, LastIndexByte_of_not_mem t c h]
  | cons x s ih =>
    have e : LastIndexByte (x :: (s ++ c :: t)) c =
        if 0 ≤ LastIndexByte (s ++ c :: t) c then LastIndexByte (s ++ c :: t) c + 1
        else if x = c then 0 else -1 := rfl
    rw [List.cons_append, e, ih, if_pos (by omega)]
    simp

theorem Index_eq_zero_iff (s substr : GoString) : Index s substr = 0 ↔ substr <+: s := by
  cases s with
  | nil =>
    simp only [Index, List.prefix_nil]
    split <;> simp_all
  | cons c s =>
    simp only [Index]
    split
    · simp_all
    · rename_i hpre
      constructor
      · intro h
        split at h <;> omega
      · intro h
        exact absurd h hpre

end strings

namespace path

theorem Dir_append_name (X name : GoString) (hs : '/' ∉ name) :
    Dir (X ++ '/' :: name) = Clean (X ++ ['/']) := by
  unfold Dir Split
  simp only [strings.LastIndexByte_append X name '/' hs]
  have : ((X.length : Int) + 1).toNat = (X ++ ['/']).length := by simp
  rw [this, show X ++ '/' :: name = (X ++ ['/']) ++ name by simp, List.take_left]

theorem Dir_of_not_mem (p : GoString) (hs : '/' ∉ p) : Dir p = ['.'] := by
  unfold Dir Split
  simp [strings.LastIndexByte_of_not_mem p '/' hs, Clean]

/-- The directory of a cleaned path written with a trailing slash is the path. -/
theorem Dir_trailing_slash (P : GoString) (hP : Clean P = P) : Dir (P ++ ['/']) = P := by
  have hne : P ≠ [] := by
    rintro rfl
    simp [Clean] at hP
  have := Dir_append_name P [] (by simp)
  rw [this, Clean_append_slash P hne, hP]

end path

namespace filepath

/-- The base of a path whose last element is a name, after nothing or after a slash. -/
theorem Base_append_name (A name : GoString) (hA : A = [] ∨ A.getLast? = some '/')
    (hn : name ≠ []) (hs : '/' ∉ name) : Base (A ++ name) = name := by
  unfold Base
  have hne : A ++ name ≠ [] := by simp [hn]
  rw [if_neg hne]
  have hlast : (A ++ name).rdropWhile (fun c => decide (c = Separator)) = A ++ name := by
    rw [List.rdropWhile_eq_self_iff]
    intro hl
    rw [List.getLast_append' A name hn]
    have : name.getLast hn ∈ name := List.getLast_mem hn
    simp only [decide_eq_true_eq, Separator]
    intro hc
    exact hs (hc ▸ this)
  simp only [hlast]
  rcases hA with rfl | hA
  · simp [Separator, strings.LastIndexByte_of_not_mem name '/' hs, hn]
  · obtain ⟨A1, rfl⟩ := List.getLast?_eq_some_iff.mp hA
    have e : A1 ++ ['/'] ++ name = A1 ++ '/' :: name := by simp
    have hi : strings.LastIndexByte (A1 ++ ['/'] ++ name) Separator = A1.length := by
      rw [e]; exact strings.LastIndexByte_append A1 name '/' hs
    have : ((A1.length : Int) + 1).toNat = (A1 ++ ['/']).length := by simp
    have hpos : (0 : Int) ≤ A1.length := by omega
    simp only [hi, hpos, if_true, this, List.drop_left, if_neg hn]

end filepath

theorem copy_select_walk (gc : GoString) (h : Host) (job : BatchJob)
    (hdir : h.Stat job.args0.arg = some true) :
    BatchLocalCopy.select gc h job = .ok
      ⟨subCmdOf job, true, trimOf job.args0.arg,
        (if ¬ strings.HasSuffix job.args0.arg [Separator] then job.args0.arg ++ [Separator]
          else job.args0.arg) ++ ['*'], job.opts.Recursive⟩ := by
  simp [BatchLocalCopy.select, hdir, trimOf, subCmdOf]

theorem upload_select_walk (gc : GoString) (h : Host) (job : BatchJob)
    (hdir : h.Stat job.args0.arg = some true) :
    BatchLocalUpload.select gc h job = .ok ⟨subCmdOf job, true, trimOf job.args0.arg⟩ := by
  simp [BatchLocalUpload.select, hdir, trimOf, subCmdOf]

theorem trimOf_trailing_slash (P : GoString) (hP : path.Clean P = P)
    (hPn : IsName (filepath.Base P)) : trimOf (P ++ [Separator]) = P ++ [Separator] := by
  have hdot : P ≠ ['.'] := by
    rintro rfl
    exact hPn.2.2.1 (by decide)
  unfold trimOf
  rw [show [Separator] = ['/'] from rfl, path.Dir_trailing_slash P hP, if_neg hdot]

/-- Under the parents option a path that starts with the trim prefix loses it. -/
theorem drop_trim (t rel : GoString) :
    (if strings.Index (t ++ rel) t = 0 then (t ++ rel).drop t.length else t ++ rel) = rel := by
  rw [if_pos ((strings.Index_eq_zero_iff _ _).mpr (List.prefix_append t rel)), List.drop_left]

/-- C1: for a walked root written `P/` with `P` a cleaned path ending in a named segment,
and a file found at `P/` followed by the relative path `d ++ name` (directory part `d`, empty
or ending in a separator, and final segment `name`), `BatchLocalCopy` and `BatchLocalUpload`
both select walk mode and compute the destination name `d ++ name` under the parents option
and `name` without it; the second argument of the sub-job is the batch destination with
that name appended. -/
theorem C1_walked_root_destination_name (GlobCharacters : GoString) (h : Host) (job : BatchJob)
    (P d name : GoString)
    (hR : job.args0.arg = P ++ [Separator])
    (hdir : h.Stat job.args0.arg = some true)
    (hP : path.Clean P = P) (hPn : IsName (filepath.Base P))
    (hd : d = [] ∨ d.getLast? = some Separator) (hn : name ≠ []) (hs : Separator ∉ name) :
    ∃ selC selU,
      BatchLocalCopy.select GlobCharacters h job = .ok selC ∧
      BatchLocalUpload.select GlobCharacters h job = .ok selU ∧
      BatchLocalCopy.dstFn job selC (P ++ [Separator] ++ (d ++ name))
        = (if job.opts.Parents then d ++ name else name) ∧
      BatchLocalUpload.dstFn job selU (P ++ [Separator] ++ (d ++ name))
        = (if job.opts.Parents then d ++ name else name) ∧
      (BatchLocalCopy.callback job selC (some (P ++ [Separator] ++ (d ++ name)))).1.map Job.args
        = some [NewJobArgument (P ++ [Separator] ++ (d ++ name)),
            job.args1.Clone.Append (if job.opts.Parents then d ++ name else name)] ∧
      (BatchLocalUpload.callback job selU (some (P ++ [Separator] ++ (d ++ name)))).1.map Job.args
        = some [NewJobArgument (P ++ [Separator] ++ (d ++ name)),
            job.args1.Clone.Append (if job.opts.Parents then d ++ name else name)] := by
  have hbase : filepath.Base (P ++ [Separator] ++ (d ++ name)) = name := by
    rw [← List.append_assoc]
    apply filepath.Base_append_name _ _ _ hn hs
    right
    rcases hd with rfl | hd
    · simp [Separator]
    · obtain ⟨d1, rfl⟩ := List.getLast?_eq_some_iff.mp hd
      exact List.getLast?_eq_some_iff.mpr ⟨P ++ [Separator] ++ d1, by simp [Separator]⟩
  have hC : ∀ sel : CopyLocals, sel.trimPrefix = P ++ [Separator] →
      BatchLocalCopy.dstFn job sel (P ++ [Separator] ++ (d ++ name))
        = (if job.opts.Parents then d ++ name else name) := by
    intro sel ht
    unfold BatchLocalCopy.dstFn
    rw [ht, drop_trim, hbase]
  have hU : ∀ sel : UploadLocals, sel.trimPrefix = P ++ [Separator] →
      BatchLocalUpload.dstFn job sel (P ++ [Separator] ++ (d ++ name))
        = (if job.opts.Parents then d ++ name else name) := by
    intro sel ht
    unfold BatchLocalUpload.dstFn
    rw [ht, drop_trim, hbase]
  have ht : trimOf job.args0.arg = P ++ [Separator] := by
    rw [hR]; exact trimOf_trailing_slash P hP hPn
  refine ⟨_, _, copy_select_walk GlobCharacters h job hdir,
    upload_select_walk GlobCharacters h job hdir, hC _ ht, hU _ ht, ?_, ?_⟩
  · simp only [BatchLocalCopy.callback, BatchJob.MakeSubJob, Option.map_some']
    rw [hC _ ht]
  · simp only [BatchLocalUpload.callback, BatchJob.MakeSubJob, Option.map_some']
    rw [hU _ ht]

theorem foundBefore_append (a b : List Visit) :
    foundBefore (a ++ b) = if stopOf a = .ret none then foundBefore a ++ foundBefore b
      else foundBefore a := by
  induction a with
  | nil => simp [foundBefore, stopOf]
  | cons v a ih =>
    cases v <;> simp [foundBefore, stopOf, ih]
    split <;> simp

theorem stopOf_append (a b : List Visit) :
    stopOf (a ++ b) = if stopOf a = .ret none then stopOf b else stopOf a := by
  induction a with
  | nil => simp [stopOf]
  | cons v a ih =>
    cases v <;> simp [stopOf, ih]

theorem ran_append (a b : List Visit) (ch : List Item) :
    ran (a ++ b) ch = if stopOf a = .ret none then ran b (ran a ch).1 else ran a ch := by
  unfold ran
  rw [foundBefore_append, stopOf_append]
  split <;> simp

mutual
theorem stopOf_visits (p : GoString) :
    ∀ t : FileTree, stopOf (t.visits p) ≠ .ret (some .SkipDir)
  | .noent text => by simp [FileTree.visits, stopOf]
  | .file => by simp [FileTree.visits, stopOf]
  | .unreadable text => by simp [FileTree.visits, stopOf]
  | .dir entries => by
    simp only [FileTree.visits]
    exact stopOf_visitsNames p entries
theorem stopOf_visitsNames (p : GoString) :
    ∀ entries : List (GoString × FileTree),
      stopOf (FileTree.visitsNames p entries) ≠ .ret (some .SkipDir)
  | [] => by simp [FileTree.visitsNames, stopOf]
  | (name, t) :: rest => by
    simp only [FileTree.visitsNames, stopOf_append]
    split
    · exact stopOf_visitsNames p rest
    · exact stopOf_visits (filepath.Join p name) t
end

mutual
theorem walk_emits (p : GoString) :
    ∀ (t : FileTree) (ch : List Item), filepath.walk emitFile p t ch = ran (t.visits p) ch
  | .noent text, ch => by simp [filepath.walk, emitFile, FileTree.visits, ran, foundBefore, stopOf]
  | .file, ch => by simp [filepath.walk, emitFile, FileTree.visits, ran, foundBefore, stopOf]
  | .unreadable text, ch => by
    simp [filepath.walk, emitFile, FileTree.visits, ran, foundBefore, stopOf]
  | .dir entries, ch => by
    simp only [filepath.walk, emitFile, FileTree.visits]
    exact walkNames_emits p entries ch
theorem walkNames_emits (p : GoString) :
    ∀ (entries : List (GoString × FileTree)) (ch : List Item),
      filepath.walkNames emitFile p entries ch = ran (FileTree.visitsNames p entries) ch
  | [], ch => by simp [filepath.walkNames, FileTree.visitsNames, ran, foundBefore, stopOf]
  | (name, t) :: rest, ch => by
    have ht := walk_emits (filepath.Join p name) t ch
    have hrest := walkNames_emits p rest
    have hstop := stopOf_visits (filepath.Join p name) t
    rw [FileTree.visitsNames, ran_append]
    cases t with
    | noent text =>
      simp [filepath.walkNames, emitFile, FileTree.visits, ran, foundBefore, stopOf]
    | file =>
      simp [filepath.walkNames, filepath.walk, emitFile, FileTree.visits, foundBefore, stopOf,
        hrest, ran]
    | unreadable text =>
      simp [filepath.walkNames, filepath.walk, emitFile, FileTree.visits, foundBefore, stopOf,
        ran, FileTree.IsDir]
    | dir entries =>
      simp only [filepath.walkNames, ht]
      generalize hv : FileTree.visits (filepath.Join p name) (.dir entries) = vs at *
      unfold ran at *
      cases hs : stopOf vs with
      | fault => simp
      | ret e =>
        cases e with
        | none => simp [hrest]
        | some e =>
          have : e ≠ .SkipDir := by
            rintro rfl
            exact hstop hs
          simp [this]
end

theorem filepathWalk_emits (h : Host) (root : GoString) (ch : List Item) :
    filepath.Walk h root emitFile ch = ran ((h.tree root).visits root) ch := by
  unfold filepath.Walk
  rw [walk_emits]
  have hstop := stopOf_visits root (h.tree root)
  unfold ran at *
  split
  · rename_i s1 heq
    simp only [Prod.mk.injEq] at heq
    exact absurd heq.2 hstop
  · rfl

theorem copy_range_eq (h : Host) (recurse : Bool) :
    ∀ (ma : List GoString) (ch : List Item),
      BatchLocalCopy.range h recurse ma ch
        = ran (ma.flatMap (BatchLocalCopy.visitsMatch h recurse)) ch := by
  intro ma
  induction ma with
  | nil => intro ch; simp [BatchLocalCopy.range, ran, foundBefore, stopOf]
  | cons f ma ih =>
    intro ch
    rw [List.flatMap_cons, ran_append]
    unfold BatchLocalCopy.range
    cases hst : h.Stat f with
    | none =>
      have hv : BatchLocalCopy.visitsMatch h recurse f = [.nilInfo] := by
        simp [BatchLocalCopy.visitsMatch, hst]
      simp [hv, ran, foundBefore, stopOf]
    | some b =>
      cases b with
      | false =>
        have hv : BatchLocalCopy.visitsMatch h recurse f = [.found f] := by
          simp [BatchLocalCopy.visitsMatch, hst]
        simp [hv, ran, foundBefore, stopOf, ih]
      | true =>
        cases recurse with
        | false =>
          have hv : BatchLocalCopy.visitsMatch h false f = [] := by
            simp [BatchLocalCopy.visitsMatch, hst]
          simp [hv, ran, foundBefore, stopOf, ih]
        | true =>
          have hv : BatchLocalCopy.visitsMatch h true f = (h.tree f).visits f := by
            simp [BatchLocalCopy.visitsMatch, hst]
          simp only [if_true, filepathWalk_emits, hv]
          generalize (h.tree f).visits f = vs
          unfold ran
          cases hs : stopOf vs with
          | fault => simp
          | ret e =>
            cases e with
            | none => simp [ih, ran]
            | some e => simp

theorem upload_range_eq (h : Host) :
    ∀ (ma : List GoString) (ch : List Item),
      BatchLocalUpload.range h ma ch = ran (ma.flatMap (BatchLocalUpload.visitsMatch h)) ch := by
  intro ma
  induction ma with
  | nil => intro ch; simp [BatchLocalUpload.range, ran, foundBefore, stopOf]
  | cons f ma ih =>
    intro ch
    rw [List.flatMap_cons, ran_append]
    unfold BatchLocalUpload.range
    cases hst : h.Stat f with
    | none =>
      have hv : BatchLocalUpload.visitsMatch h f = [.nilInfo] := by
        simp [BatchLocalUpload.visitsMatch, hst]
      simp [hv, ran, foundBefore, stopOf]
    | some b =>
      cases b with
      | false =>
        have hv : BatchLocalUpload.visitsMatch h f = [.found f] := by
          simp [BatchLocalUpload.visitsMatch, hst]
        simp [hv, ran, foundBefore, stopOf, ih]
      | true =>
        have hv : BatchLocalUpload.visitsMatch h f = [] := by
          simp [BatchLocalUpload.visitsMatch, hst]
        simp [hv, ran, foundBefore, stopOf, ih]

theorem copy_enumerate_eq (h : Host) (sel : CopyLocals) (ch : List Item) :
    BatchLocalCopy.enumerate h sel ch = ran (BatchLocalCopy.visits h sel) ch := by
  unfold BatchLocalCopy.enumerate BatchLocalCopy.visits
  cases hg : h.Glob sel.globStart with
  | error e => simp [ran, foundBefore, stopOf]
  | ok ma =>
    cases ma with
    | nil =>
      cases hw : sel.walkMode <;> simp [ran, foundBefore, stopOf]
    | cons f ma => simp [copy_range_eq]

theorem upload_enumerate_eq (h : Host) (job : BatchJob) (sel : UploadLocals)
    (ch : List Item) :
    BatchLocalUpload.enumerate h job sel ch = ran (BatchLocalUpload.visits h job sel) ch := by
  unfold BatchLocalUpload.enumerate BatchLocalUpload.visits
  cases hw : sel.walkMode with
  | true => simp [filepathWalk_emits]
  | false =>
    cases hg : h.Glob job.args0.arg with
    | error e => simp [ran, foundBefore, stopOf]
    | ok ma =>
      cases ma with
      | nil => simp [ran, foundBefore, stopOf]
      | cons f ma => simp [upload_range_eq]

theorem flatMap_single {α β : Type} (f : α → β) (l : List α) :
    l.flatMap (fun p => [f p]) = l.map f := by
  induction l with
  | nil => rfl
  | cons a l ih => simp [List.flatMap_cons, ih]

theorem drain_paths (callback : Item → Made) (hnil : callback none = (none, []))
    (paths : List GoString) :
    drain callback (paths.map some ++ [none])
      = (paths.flatMap (fun p => (callback (some p)).1.toList),
          paths.flatMap (fun p => (callback (some p)).2)) := by
  induction paths with
  | nil => simp [drain, hnil]
  | cons p paths ih => simp [drain, ih]

/-- The run of `BatchLocalCopy` once the mode is selected, in terms of the answers of the
host. -/
theorem copy_run_eq (gc : GoString) (h : Host) (job : BatchJob) (sel : CopyLocals)
    (hsel : BatchLocalCopy.select gc h job = .ok sel) :
    BatchLocalCopy gc h job =
      { written := (foundBefore (BatchLocalCopy.visits h sel)).map some ++ [none]
        jobs := (foundBefore (BatchLocalCopy.visits h sel)).map (BatchLocalCopy.subJob job sel)
        mkdirs := (foundBefore (BatchLocalCopy.visits h sel)).map
          (fun p => filepath.Dir (job.args1.Clone.Append (BatchLocalCopy.dstFn job sel p)).arg)
        response := stopOf (BatchLocalCopy.visits h sel) } := by
  unfold BatchLocalCopy
  rw [hsel]
  simp only [wildOperationLocal, BatchLocalCopy.lister, copy_enumerate_eq, ran,
    List.nil_append]
  rw [drain_paths _ rfl]
  simp only [BatchLocalCopy.callback, Option.toList, flatMap_single]
  rfl

/-- The run of `BatchLocalUpload` once the mode is selected, in terms of the answers of the
host. -/
theorem upload_run_eq (gc : GoString) (h : Host) (job : BatchJob)
    (sel : UploadLocals) (hsel : BatchLocalUpload.select gc h job = .ok sel) :
    BatchLocalUpload gc h job =
      { written := (foundBefore (BatchLocalUpload.visits h job sel)).map some ++ [none]
        jobs := (foundBefore (BatchLocalUpload.visits h job sel)).map
          (BatchLocalUpload.subJob job sel)
        mkdirs := []
        response := stopOf (BatchLocalUpload.visits h job sel) } := by
  unfold BatchLocalUpload
  rw [hsel]
  simp only [wildOperationLocal, BatchLocalUpload.lister, upload_enumerate_eq, ran,
    List.nil_append]
  rw [drain_paths _ rfl]
  simp only [BatchLocalUpload.callback, Option.toList, flatMap_single]
  simp [BatchLocalUpload.subJob]

theorem strings.IndexAny_of_no_char (s chars : GoString) (hno : ∀ c ∈ s, c ∉ chars) :
    strings.IndexAny s chars = -1 := by
  induction s with
  | nil => rfl
  | cons c s ih =>
    have hc : c ∉ chars := hno c (by simp)
    have hs : ∀ x ∈ s, x ∉ chars := fun x hx => hno x (by simp [hx])
    simp [strings.IndexAny, hc, ih hs]

theorem copy_select_not_glob (gc : GoString) (h : Host) (job : BatchJob)
    (hnd : h.Stat job.args0.arg ≠ some true) (hno : ∀ c ∈ job.args0.arg, c ∉ gc) :
    BatchLocalCopy.select gc h job
      = .error (.New ("internal error, not a glob: ".toList ++ job.args0.arg)) := by
  simp [BatchLocalCopy.select, hnd, strings.IndexAny_of_no_char _ _ hno]

theorem upload_select_not_glob (gc : GoString) (h : Host) (job : BatchJob)
    (hnd : h.Stat job.args0.arg ≠ some true) (hno : ∀ c ∈ job.args0.arg, c ∉ gc) :
    BatchLocalUpload.select gc h job
      = .error (.New ("internal error, not a glob: ".toList ++ job.args0.arg)) := by
  simp [BatchLocalUpload.select, hnd, strings.IndexAny_of_no_char _ _ hno]

/-- C7: when the first operand is not an existing directory and holds no wildcard character,
`BatchLocalCopy` and `BatchLocalUpload` answer with the error `internal error, not a glob`
and nothing else happens: nothing is written to the channel, no sub-job is built, no
directory is created. When the operand is an existing directory the mode selection succeeds
and the run is the same whatever the wildcard characters are. -/
theorem C7_selector_error (gc : GoString) (h : Host) (job : BatchJob) :
    ((h.Stat job.args0.arg ≠ some true ∧ ∀ c ∈ job.args0.arg, c ∉ gc) →
      BatchLocalCopy gc h job =
        { written := [], jobs := [], mkdirs := [],
          response := .ret (some (.New ("internal error, not a glob: ".toList ++ job.args0.arg))) } ∧
      BatchLocalUpload gc h job =
        { written := [], jobs := [], mkdirs := [],
          response := .ret (some (.New ("internal error, not a glob: ".toList ++ job.args0.arg))) }) ∧
    (h.Stat job.args0.arg = some true →
      (∃ sel, BatchLocalCopy.select gc h job = .ok sel) ∧
      (∃ sel, BatchLocalUpload.select gc h job = .ok sel) ∧
      ∀ gc2 : GoString,
        BatchLocalCopy gc2 h job = BatchLocalCopy gc h job ∧
        BatchLocalUpload gc2 h job = BatchLocalUpload gc h job) := by
  constructor
  · rintro ⟨hnd, hno⟩
    constructor
    · unfold BatchLocalCopy
      rw [copy_select_not_glob gc h job hnd hno]
    · unfold BatchLocalUpload
      rw [upload_select_not_glob gc h job hnd hno]
  · intro hdir
    refine ⟨⟨_, copy_select_walk gc h job hdir⟩,
      ⟨_, upload_select_walk gc h job hdir⟩, fun gc2 => ⟨?_, ?_⟩⟩
    · unfold BatchLocalCopy
      rw [copy_select_walk gc h job hdir, copy_select_walk gc2 h job hdir]
    · unfold BatchLocalUpload
      rw [upload_select_walk gc h job hdir, upload_select_walk gc2 h job hdir]

theorem foundBefore_split (pre : List GoString) (e : GoError) (rest : List Visit) :
    foundBefore (pre.map Visit.found ++ Visit.failed e :: rest) = pre ∧
      stopOf (pre.map Visit.found ++ Visit.failed e :: rest) = .ret (some e) := by
  induction pre with
  | nil => simp [foundBefore, stopOf]
  | cons p pre ih => simp [foundBefore, stopOf, ih]

/-- C8: once the mode is selected, what the producer of `BatchLocalCopy` and of
`BatchLocalUpload` writes to the channel is the paths met before the first answer of the host
that is not a path, followed by one nil as the last item, and the run ends as that answer
says. In particular, when the answers are the paths `pre`, then an error `e` (of the glob
expansion, of the zero-match check or of the walk), then anything, the items written are
`pre` and the nil, and `e` is the error returned; and an error of the glob expansion leaves
the nil alone on the channel and is the error returned. -/
theorem C8_termination_protocol (gc : GoString) (h : Host) (job : BatchJob) :
    (∀ sel, BatchLocalCopy.select gc h job = .ok sel →
      (BatchLocalCopy gc h job).written
          = (foundBefore (BatchLocalCopy.visits h sel)).map some ++ [none] ∧
      (BatchLocalCopy gc h job).response = stopOf (BatchLocalCopy.visits h sel) ∧
      (∀ (pre : List GoString) (e : GoError) (rest : List Visit),
        BatchLocalCopy.visits h sel = pre.map Visit.found ++ Visit.failed e :: rest →
        (BatchLocalCopy gc h job).written = pre.map some ++ [none] ∧
        (BatchLocalCopy gc h job).response = .ret (some e)) ∧
      (∀ e, h.Glob sel.globStart = .error e →
        (BatchLocalCopy gc h job).written = [none] ∧
        (BatchLocalCopy gc h job).response = .ret (some e))) ∧
    (∀ sel, BatchLocalUpload.select gc h job = .ok sel →
      (BatchLocalUpload gc h job).written
          = (foundBefore (BatchLocalUpload.visits h job sel)).map some ++ [none] ∧
      (BatchLocalUpload gc h job).response = stopOf (BatchLocalUpload.visits h job sel) ∧
      (∀ (pre : List GoString) (e : GoError) (rest : List Visit),
        BatchLocalUpload.visits h job sel = pre.map Visit.found ++ Visit.failed e :: rest →
        (BatchLocalUpload gc h job).written = pre.map some ++ [none] ∧
        (BatchLocalUpload gc h job).response = .ret (some e)) ∧
      (sel.walkMode = false → ∀ e, h.Glob job.args0.arg = .error e →
        (BatchLocalUpload gc h job).written = [none] ∧
        (BatchLocalUpload gc h job).response = .ret (some e))) := by
  constructor
  · intro sel hsel
    rw [copy_run_eq gc h job sel hsel]
    refine ⟨rfl, rfl, ?_, ?_⟩
    · intro pre e rest hv
      simp only [hv, (foundBefore_split pre e rest).1, (foundBefore_split pre e rest).2,
        and_self]
    · intro e hg
      have hv : BatchLocalCopy.visits h sel = [.failed e] := by
        simp [BatchLocalCopy.visits, hg]
      simp [hv, foundBefore, stopOf]
  · intro sel hsel
    rw [upload_run_eq gc h job sel hsel]
    refine ⟨rfl, rfl, ?_, ?_⟩
    · intro pre e rest hv
      simp only [hv, (foundBefore_split pre e rest).1, (foundBefore_split pre e rest).2,
        and_self]
    · intro hw e hg
      have hv : BatchLocalUpload.visits h job sel = [.failed e] := by
        simp [BatchLocalUpload.visits, hw, hg]
      simp [hv, foundBefore, stopOf]

theorem copy_select_ok (gc : GoString) (h : Host) (job : BatchJob) (sel : CopyLocals)
    (hsel : BatchLocalCopy.select gc h job = .ok sel) :
    sel.walkMode = decide (h.Stat job.args0.arg = some true) ∧
      sel.recurse = job.opts.Recursive ∧ sel.subCmd = subCmdOf job ∧
      (sel.walkMode = false → sel.globStart = job.args0.arg) := by
  unfold BatchLocalCopy.select at hsel
  by_cases hdir : h.Stat job.args0.arg = some true
  · simp [hdir] at hsel
    subst hsel
    simp [hdir, subCmdOf]
  · simp only [hdir, decide_False, Bool.false_eq_true, not_false_eq_true, if_true] at hsel
    split at hsel
    · exact absurd hsel (by simp)
    · simp only [Except.ok.injEq] at hsel
      subst hsel
      simp [hdir, subCmdOf]

theorem upload_select_ok (gc : GoString) (h : Host) (job : BatchJob)
    (sel : UploadLocals) (hsel : BatchLocalUpload.select gc h job = .ok sel) :
    sel.walkMode = decide (h.Stat job.args0.arg = some true) ∧ sel.subCmd = subCmdOf job := by
  unfold BatchLocalUpload.select at hsel
  by_cases hdir : h.Stat job.args0.arg = some true
  · simp [hdir] at hsel
    subst hsel
    simp [hdir, subCmdOf]
  · simp only [hdir, decide_False, Bool.false_eq_true, not_false_eq_true, if_true] at hsel
    split at hsel
    · exact absurd hsel (by simp)
    · simp only [Except.ok.injEq] at hsel
      subst hsel
      simp [hdir, subCmdOf]

/-- Zero matches: once the mode is selected (walk mode exactly when `os.Stat` reports a
directory), a source without a match ends the batch with the nil alone on the channel and without a
sub-job or a created directory. For `BatchLocalCopy` the source is without a match when the
glob expansion (of the entries of the root in walk mode, of the pattern in glob mode) returns
none: the producer returns nil in walk mode and `could not find match for glob` in glob mode.
For `BatchLocalUpload` in walk mode the source is a readable directory without entries and
the producer returns nil; in glob mode the expansion of the pattern returns no match and the
producer returns `could not find match for glob`. -/
theorem zero_matches_end_the_batch (gc : GoString) (h : Host) (job : BatchJob) :
    (∀ sel, BatchLocalCopy.select gc h job = .ok sel →
      sel.walkMode = decide (h.Stat job.args0.arg = some true) ∧
      (h.Glob sel.globStart = .ok [] →
        BatchLocalCopy gc h job =
          { written := [none], jobs := [], mkdirs := [],
            response := .ret (if sel.walkMode then none else some noMatch) })) ∧
    (∀ sel, BatchLocalUpload.select gc h job = .ok sel →
      sel.walkMode = decide (h.Stat job.args0.arg = some true) ∧
      (sel.walkMode = true → h.tree job.args0.arg = .dir [] →
        BatchLocalUpload gc h job =
          { written := [none], jobs := [], mkdirs := [], response := .ret none }) ∧
      (sel.walkMode = false → h.Glob job.args0.arg = .ok [] →
        BatchLocalUpload gc h job =
          { written := [none], jobs := [], mkdirs := [], response := .ret (some noMatch) })) := by
  constructor
  · intro sel hsel
    refine ⟨(copy_select_ok gc h job sel hsel).1, fun hg => ?_⟩
    rw [copy_run_eq gc h job sel hsel]
    have hv : BatchLocalCopy.visits h sel
        = if sel.walkMode then [] else [.failed noMatch] := by
      simp [BatchLocalCopy.visits, hg, noMatch]
    rw [hv]
    cases sel.walkMode <;> simp [foundBefore, stopOf]
  · intro sel hsel
    refine ⟨(upload_select_ok gc h job sel hsel).1, fun hw ht => ?_, fun hw hg => ?_⟩
    · rw [upload_run_eq gc h job sel hsel]
      have hv : BatchLocalUpload.visits h job sel = [] := by
        simp [BatchLocalUpload.visits, hw, ht, FileTree.visits, FileTree.visitsNames]
      rw [hv]
      simp [foundBefore, stopOf]
    · rw [upload_run_eq gc h job sel hsel]
      have hv : BatchLocalUpload.visits h job sel = [.failed noMatch] := by
        simp [BatchLocalUpload.visits, hw, hg, noMatch]
      rw [hv]
      simp [foundBefore, stopOf]

theorem found_of_mem_foundBefore (vs : List Visit) (p : GoString) (hp : p ∈ foundBefore vs) :
    Visit.found p ∈ vs := by
  induction vs with
  | nil => simp [foundBefore] at hp
  | cons v vs ih =>
    cases v with
    | found q =>
      simp only [foundBefore, List.mem_cons] at hp
      rcases hp with rfl | hp
      · simp
      · simp [ih hp]
    | failed e => simp [foundBefore] at hp
    | nilInfo => simp [foundBefore] at hp

theorem copy_found_visitsMatch (h : Host) (f p : GoString)
    (hp : Visit.found p ∈ BatchLocalCopy.visitsMatch h false f) :
    p = f ∧ h.Stat p = some false := by
  unfold BatchLocalCopy.visitsMatch at hp
  cases hst : h.Stat f with
  | none => simp [hst] at hp
  | some b =>
    cases b with
    | true => simp [hst] at hp
    | false =>
      simp [hst] at hp
      subst hp
      exact ⟨rfl, hst⟩

theorem upload_found_visitsMatch (h : Host) (f p : GoString)
    (hp : Visit.found p ∈ BatchLocalUpload.visitsMatch h f) :
    p = f ∧ h.Stat p = some false := by
  unfold BatchLocalUpload.visitsMatch at hp
  cases hst : h.Stat f with
  | none => simp [hst] at hp
  | some b =>
    cases b with
    | true => simp [hst] at hp
    | false =>
      simp [hst] at hp
      subst hp
      exact ⟨rfl, hst⟩

/-- The paths `BatchLocalCopy` meets without the recursive option are glob matches that are
not directories. -/
theorem copy_found_flat (h : Host) (sel : CopyLocals) (hr : sel.recurse = false)
    (p : GoString) (hp : p ∈ foundBefore (BatchLocalCopy.visits h sel)) :
    ∃ ma, h.Glob sel.globStart = .ok ma ∧ p ∈ ma ∧ h.Stat p = some false := by
  have hf := found_of_mem_foundBefore _ _ hp
  unfold BatchLocalCopy.visits at hf
  cases hg : h.Glob sel.globStart with
  | error e => simp [hg] at hf
  | ok ma =>
    cases ma with
    | nil =>
      simp only [hg] at hf
      split at hf <;> simp at hf
    | cons f ma =>
      simp only [hg, hr, List.mem_flatMap] at hf
      obtain ⟨m, hm, hpm⟩ := hf
      obtain ⟨rfl, hst⟩ := copy_found_visitsMatch h m p hpm
      exact ⟨_, rfl, hm, hst⟩

/-- The paths `BatchLocalUpload` meets in glob mode are glob matches that are not
directories. -/
theorem upload_found_flat (h : Host) (job : BatchJob) (sel : UploadLocals)
    (hw : sel.walkMode = false) (p : GoString)
    (hp : p ∈ foundBefore (BatchLocalUpload.visits h job sel)) :
    ∃ ma, h.Glob job.args0.arg = .ok ma ∧ p ∈ ma ∧ h.Stat p = some false := by
  have hf := found_of_mem_foundBefore _ _ hp
  unfold BatchLocalUpload.visits at hf
  rw [hw, if_neg (by simp)] at hf
  cases hg : h.Glob job.args0.arg with
  | error e => simp [hg] at hf
  | ok ma =>
    cases ma with
    | nil => simp [hg] at hf
    | cons f ma =>
      simp only [hg, List.mem_flatMap] at hf
      obtain ⟨m, hm, hpm⟩ := hf
      obtain ⟨rfl, hst⟩ := upload_found_visitsMatch h m p hpm
      exact ⟨_, rfl, hm, hst⟩

theorem copy_written_mem (gc : GoString) (h : Host) (job : BatchJob) (p : GoString)
    (hp : some p ∈ (BatchLocalCopy gc h job).written) :
    ∃ sel, BatchLocalCopy.select gc h job = .ok sel ∧
      p ∈ foundBefore (BatchLocalCopy.visits h sel) := by
  cases hsel : BatchLocalCopy.select gc h job with
  | error e => simp [BatchLocalCopy, hsel] at hp
  | ok sel =>
    rw [copy_run_eq gc h job sel hsel] at hp
    simp at hp
    exact ⟨sel, rfl, hp⟩

theorem upload_written_mem (gc : GoString) (h : Host) (job : BatchJob) (p : GoString)
    (hp : some p ∈ (BatchLocalUpload gc h job).written) :
    ∃ sel, BatchLocalUpload.select gc h job = .ok sel ∧
      p ∈ foundBefore (BatchLocalUpload.visits h job sel) := by
  cases hsel : BatchLocalUpload.select gc h job with
  | error e => simp [BatchLocalUpload, hsel] at hp
  | ok sel =>
    rw [upload_run_eq gc h job sel hsel] at hp
    simp at hp
    exact ⟨sel, rfl, hp⟩

theorem copy_jobs_mem (gc : GoString) (h : Host) (job : BatchJob) (j : Job)
    (hj : j ∈ (BatchLocalCopy gc h job).jobs) :
    ∃ sel p, BatchLocalCopy.select gc h job = .ok sel ∧
      p ∈ foundBefore (BatchLocalCopy.visits h sel) ∧ j = BatchLocalCopy.subJob job sel p := by
  cases hsel : BatchLocalCopy.select gc h job with
  | error e => simp [BatchLocalCopy, hsel] at hj
  | ok sel =>
    rw [copy_run_eq gc h job sel hsel] at hj
    simp at hj
    obtain ⟨p, hp, rfl⟩ := hj
    exact ⟨sel, p, rfl, hp, rfl⟩

theorem upload_jobs_mem (gc : GoString) (h : Host) (job : BatchJob) (j : Job)
    (hj : j ∈ (BatchLocalUpload gc h job).jobs) :
    ∃ sel p, BatchLocalUpload.select gc h job = .ok sel ∧
      p ∈ foundBefore (BatchLocalUpload.visits h job sel) ∧
      j = BatchLocalUpload.subJob job sel p := by
  cases hsel : BatchLocalUpload.select gc h job with
  | error e => simp [BatchLocalUpload, hsel] at hj
  | ok sel =>
    rw [upload_run_eq gc h job sel hsel] at hj
    simp at hj
    obtain ⟨p, hp, rfl⟩ := hj
    exact ⟨sel, p, rfl, hp, rfl⟩

theorem copy_emitted_flat (gc : GoString) (h : Host) (job : BatchJob)
    (hglob : h.Stat job.args0.arg ≠ some true) (hrec : job.opts.Recursive = false)
    (sel : CopyLocals) (hsel : BatchLocalCopy.select gc h job = .ok sel) (p : GoString)
    (hp : p ∈ foundBefore (BatchLocalCopy.visits h sel)) :
    ∃ ma, h.Glob job.args0.arg = .ok ma ∧ p ∈ ma ∧ h.Stat p = some false := by
  obtain ⟨hw, hr, -, hg⟩ := copy_select_ok gc h job sel hsel
  have hw2 : sel.walkMode = false := by simp [hw, hglob]
  have := copy_found_flat h sel (by rw [hr, hrec]) p hp
  rwa [hg hw2] at this

theorem upload_emitted_flat (gc : GoString) (h : Host) (job : BatchJob)
    (hglob : h.Stat job.args0.arg ≠ some true)
    (sel : UploadLocals) (hsel : BatchLocalUpload.select gc h job = .ok sel) (p : GoString)
    (hp : p ∈ foundBefore (BatchLocalUpload.visits h job sel)) :
    ∃ ma, h.Glob job.args0.arg = .ok ma ∧ p ∈ ma ∧ h.Stat p = some false := by
  obtain ⟨hw, -⟩ := upload_select_ok gc h job sel hsel
  have hw2 : sel.walkMode = false := by simp [hw, hglob]
  exact upload_found_flat h job sel hw2 p hp

/-- C4: in glob mode (the operand is not an existing directory) without the recursive
option, every path the producer of `BatchLocalCopy` writes to the channel is a match of the
glob expansion of the operand on which `os.Stat` reports a non-directory, no path on which
`os.Stat` reports a directory is written, and the source of every sub-job is such a
non-directory match. The same holds for `BatchLocalUpload`, whatever the recursive option
is. -/
theorem C4_glob_skips_directories (gc : GoString) (h : Host) (job : BatchJob)
    (hglob : h.Stat job.args0.arg ≠ some true) :
    (job.opts.Recursive = false →
      (∀ p, some p ∈ (BatchLocalCopy gc h job).written →
        ∃ ma, h.Glob job.args0.arg = .ok ma ∧ p ∈ ma ∧ h.Stat p = some false) ∧
      (∀ m, h.Stat m = some true → some m ∉ (BatchLocalCopy gc h job).written) ∧
      (∀ j ∈ (BatchLocalCopy gc h job).jobs, ∃ p ma, h.Glob job.args0.arg = .ok ma ∧ p ∈ ma ∧
        h.Stat p = some false ∧ j.args.head? = some (NewJobArgument p))) ∧
    ((∀ p, some p ∈ (BatchLocalUpload gc h job).written →
        ∃ ma, h.Glob job.args0.arg = .ok ma ∧ p ∈ ma ∧ h.Stat p = some false) ∧
      (∀ m, h.Stat m = some true → some m ∉ (BatchLocalUpload gc h job).written) ∧
      (∀ j ∈ (BatchLocalUpload gc h job).jobs, ∃ p ma, h.Glob job.args0.arg = .ok ma ∧ p ∈ ma ∧
        h.Stat p = some false ∧ j.args.head? = some (NewJobArgument p))) := by
  have hC : job.opts.Recursive = false → ∀ p, some p ∈ (BatchLocalCopy gc h job).written →
      ∃ ma, h.Glob job.args0.arg = .ok ma ∧ p ∈ ma ∧ h.Stat p = some false := by
    intro hrec p hp
    obtain ⟨sel, hsel, hp⟩ := copy_written_mem gc h job p hp
    exact copy_emitted_flat gc h job hglob hrec sel hsel p hp
  have hU : ∀ p, some p ∈ (BatchLocalUpload gc h job).written →
      ∃ ma, h.Glob job.args0.arg = .ok ma ∧ p ∈ ma ∧ h.Stat p = some false := by
    intro p hp
    obtain ⟨sel, hsel, hp⟩ := upload_written_mem gc h job p hp
    exact upload_emitted_flat gc h job hglob sel hsel p hp
  refine ⟨fun hrec => ⟨hC hrec, ?_, ?_⟩, hU, ?_, ?_⟩
  · intro m hm hmem
    obtain ⟨ma, -, -, hst⟩ := hC hrec m hmem
    rw [hm] at hst
    exact absurd hst (by simp)
  · intro j hj
    obtain ⟨sel, p, hsel, hp, rfl⟩ := copy_jobs_mem gc h job j hj
    obtain ⟨ma, hg, hm, hst⟩ := copy_emitted_flat gc h job hglob hrec sel hsel p hp
    exact ⟨p, ma, hg, hm, hst, rfl⟩
  · intro m hm hmem
    obtain ⟨ma, -, -, hst⟩ := hU m hmem
    rw [hm] at hst
    exact absurd hst (by simp)
  · intro j hj
    obtain ⟨sel, p, hsel, hp, rfl⟩ := upload_jobs_mem gc h job j hj
    obtain ⟨ma, hg, hm, hst⟩ := upload_emitted_flat gc h job hglob sel hsel p hp
    exact ⟨p, ma, hg, hm, hst, rfl⟩

theorem mem_foundBefore_of_stop (vs : List Visit) (hstop : stopOf vs = .ret none) (q : GoString)
    (hq : Visit.found q ∈ vs) : q ∈ foundBefore vs := by
  induction vs with
  | nil => simp at hq
  | cons v vs ih =>
    cases v with
    | found p =>
      simp only [List.mem_cons, Visit.found.injEq] at hq
      simp only [foundBefore, List.mem_cons]
      rcases hq with rfl | hq
      · exact Or.inl rfl
      · exact Or.inr (ih (by simpa [stopOf] using hstop) hq)
    | failed e => simp [stopOf] at hstop
    | nilInfo => simp [stopOf] at hstop

theorem copy_found_visitsMatch_iff (h : Host) (recurse : Bool) (m p : GoString) :
    Visit.found p ∈ BatchLocalCopy.visitsMatch h recurse m ↔
      (p = m ∧ h.Stat m = some false) ∨
        (h.Stat m = some true ∧ recurse = true ∧ Visit.found p ∈ (h.tree m).visits m) := by
  unfold BatchLocalCopy.visitsMatch
  cases hst : h.Stat m with
  | none => simp
  | some b =>
    cases b with
    | false => simp
    | true => cases recurse <;> simp

theorem copy_found_visits_iff (h : Host) (sel : CopyLocals) (p : GoString) :
    Visit.found p ∈ BatchLocalCopy.visits h sel ↔
      ∃ ma, h.Glob sel.globStart = .ok ma ∧ ∃ m ∈ ma,
        Visit.found p ∈ BatchLocalCopy.visitsMatch h sel.recurse m := by
  unfold BatchLocalCopy.visits
  cases hg : h.Glob sel.globStart with
  | error e => simp
  | ok ma =>
    cases ma with
    | nil =>
      simp only [Except.ok.injEq, exists_eq_left', List.not_mem_nil, false_and, exists_false,
        iff_false]
      split <;> simp
    | cons f ma => simp [List.mem_flatMap]

/-- What `BatchLocalCopy` writes to the channel: non-directory glob matches and, under the
recursive option, the non-directory entries found by walking the directory matches. -/
theorem copy_emitted_origin (gc : GoString) (h : Host) (job : BatchJob)
    (sel : CopyLocals) (hsel : BatchLocalCopy.select gc h job = .ok sel) (p : GoString)
    (hp : some p ∈ (BatchLocalCopy gc h job).written) :
    ∃ ma, h.Glob sel.globStart = .ok ma ∧ ∃ m ∈ ma, (p = m ∧ h.Stat m = some false) ∨
      (h.Stat m = some true ∧ job.opts.Recursive = true ∧
        Visit.found p ∈ (h.tree m).visits m) := by
  obtain ⟨sel2, hsel2, hp⟩ := copy_written_mem gc h job p hp
  rw [hsel] at hsel2
  cases hsel2
  obtain ⟨ma, hg, m, hm, hpm⟩ :=
    (copy_found_visits_iff h sel p).mp (found_of_mem_foundBefore _ _ hp)
  rw [copy_found_visitsMatch_iff,
    (copy_select_ok gc h job sel hsel).2.1] at hpm
  exact ⟨ma, hg, m, hm, hpm⟩

/-- When `BatchLocalCopy` ends without an error under the recursive option, every
non-directory entry at or beneath a directory match is written to the channel. -/
theorem copy_emitted_beneath (gc : GoString) (h : Host) (job : BatchJob)
    (sel : CopyLocals) (hsel : BatchLocalCopy.select gc h job = .ok sel)
    (hrec : job.opts.Recursive = true) (hok : (BatchLocalCopy gc h job).response = .ret none)
    (ma : List GoString) (hg : h.Glob sel.globStart = .ok ma) (m : GoString) (hm : m ∈ ma)
    (hst : h.Stat m = some true) (q : GoString) (hq : Visit.found q ∈ (h.tree m).visits m) :
    some q ∈ (BatchLocalCopy gc h job).written := by
  rw [copy_run_eq gc h job sel hsel] at hok ⊢
  simp only [List.mem_append, List.mem_map, Option.some.injEq, exists_eq_right,
    List.mem_singleton, reduceCtorEq, or_false]
  apply mem_foundBefore_of_stop _ hok
  rw [copy_found_visits_iff]
  refine ⟨ma, hg, m, hm, ?_⟩
  rw [copy_found_visitsMatch_iff, (copy_select_ok gc h job sel hsel).2.1]
  exact Or.inr ⟨hst, hrec, hq⟩

/-- Descent in glob mode: with the recursive option set, `BatchLocalCopy` descends into
every glob match that is a directory: when the batch ends without an error, every
non-directory entry the walk finds at or beneath such a match is written to the channel, and
every path written is a non-directory match or such an entry. `BatchLocalUpload` does not
descend: whatever the recursive option is, every path it writes is a glob match that is not
a directory. -/
theorem recursive_glob_descent (gc : GoString) (h : Host) (job : BatchJob)
    (hglob : h.Stat job.args0.arg ≠ some true) :
    (job.opts.Recursive = true → (BatchLocalCopy gc h job).response = .ret none →
      ∀ ma, h.Glob job.args0.arg = .ok ma → ∀ m ∈ ma, h.Stat m = some true →
        ∀ q, Visit.found q ∈ (h.tree m).visits m →
          some q ∈ (BatchLocalCopy gc h job).written) ∧
    (∀ p, some p ∈ (BatchLocalCopy gc h job).written →
      ∃ ma, h.Glob job.args0.arg = .ok ma ∧ ∃ m ∈ ma, (p = m ∧ h.Stat m = some false) ∨
        (h.Stat m = some true ∧ job.opts.Recursive = true ∧
          Visit.found p ∈ (h.tree m).visits m)) ∧
    (∀ p, some p ∈ (BatchLocalUpload gc h job).written →
      ∃ ma, h.Glob job.args0.arg = .ok ma ∧ p ∈ ma ∧ h.Stat p = some false) := by
  have hstart : ∀ sel, BatchLocalCopy.select gc h job = .ok sel →
      sel.globStart = job.args0.arg := by
    intro sel hsel
    obtain ⟨hw, -, -, hgs⟩ := copy_select_ok gc h job sel hsel
    exact hgs (by simp [hw, hglob])
  refine ⟨?_, ?_, ?_⟩
  · intro hrec hok ma hg m hm hst q hq
    cases hsel : BatchLocalCopy.select gc h job with
    | error e => simp [BatchLocalCopy, hsel] at hok
    | ok sel =>
      exact copy_emitted_beneath gc h job sel hsel hrec hok ma
        (by rw [hstart sel hsel]; exact hg) m hm hst q hq
  · intro p hp
    obtain ⟨sel, hsel, -⟩ := copy_written_mem gc h job p hp
    have := copy_emitted_origin gc h job sel hsel p hp
    rwa [hstart sel hsel] at this
  · intro p hp
    obtain ⟨sel, hsel, hp⟩ := upload_written_mem gc h job p hp
    exact upload_emitted_flat gc h job hglob sel hsel p hp

/-- C6 (amended): in walk mode (the operand is an existing directory) `BatchLocalCopy`
expands the root followed by a separator (unless it ends in one) and `*`. Every path it
writes to the channel is a match of that expansion on which `os.Stat` reports a
non-directory or, only with the recursive option set, an entry that the walk of a match on
which `os.Stat` reports a directory finds to be a non-directory; with the option set and the
batch ending without an error all such entries are written. Where the expansion returns only
entries of the root, without the recursive option every path written is a direct child of the
root on which `os.Stat` reports a non-directory. `BatchLocalUpload` walks the root whatever
the recursive option is: every path it writes is an entry at some depth that the walk finds
to be a non-directory, it writes those met before the first failure, and all of them when
the batch ends without an error. -/
theorem C6_walk_mode_descent (gc : GoString) (h : Host) (job : BatchJob)
    (hdir : h.Stat job.args0.arg = some true) :
    (∀ sel, BatchLocalCopy.select gc h job = .ok sel →
      sel.globStart = (if ¬ strings.HasSuffix job.args0.arg [Separator]
        then job.args0.arg ++ [Separator] else job.args0.arg) ++ ['*'] ∧
      (∀ p, some p ∈ (BatchLocalCopy gc h job).written →
        ∃ ma, h.Glob sel.globStart = .ok ma ∧ ∃ m ∈ ma, (p = m ∧ h.Stat m = some false) ∨
          (h.Stat m = some true ∧ job.opts.Recursive = true ∧
            Visit.found p ∈ (h.tree m).visits m)) ∧
      (job.opts.Recursive = false → ∀ p, some p ∈ (BatchLocalCopy gc h job).written →
        ∃ ma, h.Glob sel.globStart = .ok ma ∧ p ∈ ma ∧ h.Stat p = some false) ∧
      (job.opts.Recursive = false → ∀ entries, h.tree job.args0.arg = .dir entries →
        (∀ ma, h.Glob sel.globStart = .ok ma →
          ∀ m ∈ ma, ∃ e ∈ entries, m = filepath.Join job.args0.arg e.1) →
        ∀ p, some p ∈ (BatchLocalCopy gc h job).written →
          ∃ e ∈ entries, p = filepath.Join job.args0.arg e.1 ∧ h.Stat p = some false) ∧
      (job.opts.Recursive = true → (BatchLocalCopy gc h job).response = .ret none →
        ∀ ma, h.Glob sel.globStart = .ok ma → ∀ m ∈ ma, h.Stat m = some true →
          ∀ q, Visit.found q ∈ (h.tree m).visits m →
            some q ∈ (BatchLocalCopy gc h job).written)) ∧
    (BatchLocalUpload gc h job).written
      = (foundBefore ((h.tree job.args0.arg).visits job.args0.arg)).map some ++ [none] ∧
    (∀ p, some p ∈ (BatchLocalUpload gc h job).written →
      Visit.found p ∈ (h.tree job.args0.arg).visits job.args0.arg) ∧
    ((BatchLocalUpload gc h job).response = .ret none →
      ∀ q, Visit.found q ∈ (h.tree job.args0.arg).visits job.args0.arg →
        some q ∈ (BatchLocalUpload gc h job).written) := by
  have hU := upload_run_eq gc h job _ (upload_select_walk gc h job hdir)
  have hv : BatchLocalUpload.visits h job ⟨subCmdOf job, true, trimOf job.args0.arg⟩
      = (h.tree job.args0.arg).visits job.args0.arg := by
    simp [BatchLocalUpload.visits]
  rw [hv] at hU
  refine ⟨?_, ?_, ?_, ?_⟩
  · intro sel hsel
    have hs := copy_select_walk gc h job hdir
    rw [hsel] at hs
    simp only [Except.ok.injEq] at hs
    have hflat : job.opts.Recursive = false → ∀ p,
        some p ∈ (BatchLocalCopy gc h job).written →
        ∃ ma, h.Glob sel.globStart = .ok ma ∧ p ∈ ma ∧ h.Stat p = some false := by
      intro hrec p hp
      obtain ⟨sel2, hsel2, hp⟩ := copy_written_mem gc h job p hp
      rw [hsel] at hsel2
      cases hsel2
      exact copy_found_flat h sel
        (by rw [(copy_select_ok gc h job sel hsel).2.1, hrec]) p hp
    refine ⟨by rw [hs], fun p hp => copy_emitted_origin gc h job sel hsel p hp, hflat, ?_, ?_⟩
    · intro hrec entries _ hlist p hp
      obtain ⟨ma, hg, hm, hst⟩ := hflat hrec p hp
      obtain ⟨e, he, hpe⟩ := hlist ma hg p hm
      exact ⟨e, he, hpe, hst⟩
    · intro hrec hok ma hg m hm hst q hq
      exact copy_emitted_beneath gc h job sel hsel hrec hok ma hg m hm hst q hq
  · rw [hU]
  · intro p hp
    rw [hU] at hp
    simp only [List.mem_append, List.mem_map, Option.some.injEq, exists_eq_right,
      List.mem_singleton, reduceCtorEq, or_false] at hp
    exact found_of_mem_foundBefore _ _ hp
  · intro hok q hq
    rw [hU] at hok ⊢
    simp only [List.mem_append, List.mem_map, Option.some.injEq, exists_eq_right,
      List.mem_singleton, reduceCtorEq, or_false]
    exact mem_foundBefore_of_stop _ hok q hq

theorem strings.IndexAny_append (a b chars : GoString) (c : Char)
    (ha : ∀ x ∈ a, x ∉ chars) (hc : c ∈ chars) :
    strings.IndexAny (a ++ c :: b) chars = a.length := by
  induction a with
  | nil => simp [strings.IndexAny, hc]
  | cons x a ih =>
    have hx : x ∉ chars := ha x (by simp)
    have hs : ∀ y ∈ a, y ∉ chars := fun y hy => ha y (by simp [hy])
    have e : strings.IndexAny (x :: (a ++ c :: b)) chars =
        if x ∈ chars then 0
        else if strings.IndexAny (a ++ c :: b) chars < 0 then -1
        else strings.IndexAny (a ++ c :: b) chars + 1 := rfl
    rw [List.cons_append, e, if_neg hx, ih hs, if_neg (by omega)]
    simp

theorem path.Clean_eq_cleaned (p : GoString) (hp : p ≠ []) :
    path.Clean p = if (path.cleaned p).length = 0 then ['.'] else path.cleaned p := by
  unfold path.Clean path.cleaned
  rw [if_neg hp]
  by_cases hr : p.head? = some '/' <;> simp [hr]

/-- Cleaning a path that ends in a separator and a name: the name follows what the part
before it is cleaned to. -/
theorem path.cleaned_append_name (X name : GoString) (hX : X ≠ []) (hn : IsName name) :
    path.cleaned (X ++ '/' :: name)
      = path.addSlash (decide (X.head? = some '/')) (path.cleaned X) ++ name := by
  cases X with
  | nil => exact absurd rfl hX
  | cons c X1 =>
    unfold path.cleaned
    by_cases hr : c = '/'
    · subst hr
      simp only [List.cons_append, List.head?_cons, List.tail_cons, if_true, decide_True]
      rw [path.cleanLoop_append_slash true name X1.length X1 le_rfl, path.cleanLoop_name _ _ hn]
    · have hh : ¬ (some c = some '/') := by simpa using hr
      simp only [List.cons_append, List.head?_cons, hh, if_false, decide_False]
      have := path.cleanLoop_append_slash false name (c :: X1).length (c :: X1) le_rfl false [] 0
      rw [List.cons_append] at this
      rw [this, path.cleanLoop_name _ _ hn]

/-- The part before the last name of a cleaned path is itself cleaned, and it is not `.`. -/
theorem path.Clean_before_name (X name : GoString) (hX : X ≠ []) (hn : IsName name)
    (hP : path.Clean (X ++ '/' :: name) = X ++ '/' :: name) :
    path.Clean X = X ∧ X ≠ ['.'] := by
  have hne : X ++ '/' :: name ≠ [] := by simp
  have hnn : name ≠ [] := hn.1
  rw [path.Clean_eq_cleaned _ hne, path.cleaned_append_name X name hX hn] at hP
  have hlen : ¬ (path.addSlash (decide (X.head? = some '/')) (path.cleaned X) ++ name).length = 0 := by
    intro h0
    have := List.length_eq_zero.mp h0
    simp at this
    exact hnn this.2
  rw [if_neg hlen, show X ++ '/' :: name = (X ++ ['/']) ++ name by simp] at hP
  have hadd := List.append_cancel_right hP
  have hcl : path.cleaned X = X := by
    unfold path.addSlash at hadd
    split at hadd
    · exact List.append_cancel_right hadd
    · rename_i hcond
      have hl : (path.cleaned X).length = X.length + 1 := by rw [hadd]; simp
      have hXl : 0 < X.length := List.length_pos.mpr hX
      exfalso
      apply hcond
      by_cases hr : X.head? = some '/'
      · left; exact ⟨by simp [hr], by omega⟩
      · right; exact ⟨by simp [hr], by omega⟩
  refine ⟨?_, ?_⟩
  · rw [path.Clean_eq_cleaned X hX, hcl, if_neg (by simpa using hX)]
  · rintro rfl
    have : path.cleaned ['.'] = [] := by decide
    rw [this] at hcl
    exact absurd hcl (by simp)

theorem trimOf_before_name (X name : GoString) (hX : X ≠ []) (hn : IsName name)
    (hP : path.Clean (X ++ '/' :: name) = X ++ '/' :: name) :
    trimOf (X ++ '/' :: name) = X ++ [Separator] := by
  obtain ⟨hc, hd⟩ := path.Clean_before_name X name hX hn hP
  unfold trimOf
  rw [path.Dir_append_name X name hn.2.1, path.Clean_append_slash X hX, hc, if_neg hd]

theorem trimOf_name (name : GoString) (hn : IsName name) : trimOf name = [] := by
  unfold trimOf
  rw [path.Dir_of_not_mem name hn.2.1, if_pos rfl]

/-- Away from the file system root the walked root written without a trailing separator
keeps its own name: for a cleaned root `X/name` with `X` not empty, or a root `name`, both
entry points compute under the parents option the destination name `name/rel` for the file
at the root followed by `/rel`. -/
theorem walked_root_keeps_name (gc : GoString) (h : Host) (job : BatchJob)
    (X name rel : GoString) (hn : IsName name)
    (harg : (job.args0.arg = X ++ '/' :: name ∧ X ≠ [] ∧
        path.Clean (X ++ '/' :: name) = X ++ '/' :: name) ∨ (job.args0.arg = name ∧ X = []))
    (hdir : h.Stat job.args0.arg = some true) (hpar : job.opts.Parents = true) :
    ∃ selC selU,
      BatchLocalCopy.select gc h job = .ok selC ∧
      BatchLocalUpload.select gc h job = .ok selU ∧
      selC.trimPrefix = (if X = [] then [] else X ++ [Separator]) ∧
      selU.trimPrefix = (if X = [] then [] else X ++ [Separator]) ∧
      BatchLocalCopy.dstFn job selC (job.args0.arg ++ Separator :: rel) = name ++ Separator :: rel ∧
      BatchLocalUpload.dstFn job selU (job.args0.arg ++ Separator :: rel)
        = name ++ Separator :: rel := by
  have ht : trimOf job.args0.arg = (if X = [] then [] else X ++ [Separator]) := by
    rcases harg with ⟨ha, hX, hP⟩ | ⟨ha, hX⟩
    · rw [ha, if_neg hX]; exact trimOf_before_name X name hX hn hP
    · rw [ha, if_pos hX]; exact trimOf_name name hn
  have hdst : (if strings.Index (job.args0.arg ++ Separator :: rel) (trimOf job.args0.arg) = 0
      then (job.args0.arg ++ Separator :: rel).drop (trimOf job.args0.arg).length
      else job.args0.arg ++ Separator :: rel) = name ++ Separator :: rel := by
    rw [ht]
    rcases harg with ⟨ha, hX, -⟩ | ⟨ha, hX⟩
    · rw [ha, if_neg hX]
      have e : X ++ '/' :: name ++ Separator :: rel
          = (X ++ [Separator]) ++ (name ++ Separator :: rel) := by simp [Separator]
      rw [e]
      exact drop_trim _ _
    · rw [ha, if_pos hX]
      exact drop_trim [] _
  refine ⟨_, _, copy_select_walk gc h job hdir,
    upload_select_walk gc h job hdir, ht, ht, ?_, ?_⟩
  · simp only [BatchLocalCopy.dstFn, hpar, if_true]
    exact hdst
  · simp only [BatchLocalUpload.dstFn, hpar, if_true]
    exact hdst

theorem copy_select_glob (gc : GoString) (h : Host) (job : BatchJob)
    (hglob : h.Stat job.args0.arg ≠ some true)
    (hloc : 0 ≤ strings.IndexAny job.args0.arg gc) :
    BatchLocalCopy.select gc h job = .ok
      ⟨subCmdOf job, false,
        trimOf (job.args0.arg.take (strings.IndexAny job.args0.arg gc).toNat),
        job.args0.arg, job.opts.Recursive⟩ := by
  have : ¬ strings.IndexAny job.args0.arg gc < 0 := by omega
  simp [BatchLocalCopy.select, hglob, this, trimOf, subCmdOf]

/-- Away from the file system root the destination name of a glob is the path beneath the
directory of the pattern: for a pattern `D/W` whose directory `D` is a cleaned path ending in
a named segment and holds no wildcard character, and whose first wildcard character stands in
the segment after `D`, `BatchLocalCopy` selects glob mode with the trim prefix `D/` and
computes under the parents option the destination name `rel` for the path `D/rel`. -/
theorem glob_destination_name (gc : GoString) (h : Host) (job : BatchJob)
    (D pre post rel : GoString) (c : Char)
    (hpat : job.args0.arg = D ++ Separator :: (pre ++ c :: post))
    (hglob : h.Stat job.args0.arg ≠ some true)
    (hD : ∀ x ∈ D, x ∉ gc) (hsep : Separator ∉ gc)
    (hpre : ∀ x ∈ pre, x ∉ gc) (hpre2 : Separator ∉ pre) (hc : c ∈ gc)
    (hclean : path.Clean D = D) (hDn : IsName (filepath.Base D))
    (hpar : job.opts.Parents = true) :
    ∃ sel, BatchLocalCopy.select gc h job = .ok sel ∧ sel.walkMode = false ∧
      sel.globStart = job.args0.arg ∧ sel.trimPrefix = D ++ [Separator] ∧
      BatchLocalCopy.dstFn job sel (D ++ Separator :: rel) = rel := by
  have hidx : strings.IndexAny job.args0.arg gc = ((D ++ Separator :: pre).length : Int) := by
    rw [hpat, show D ++ Separator :: (pre ++ c :: post) = (D ++ Separator :: pre) ++ c :: post
      by simp]
    apply strings.IndexAny_append _ _ _ _ _ hc
    intro x hx
    simp only [List.mem_append, List.mem_cons] at hx
    rcases hx with hx | rfl | hx
    · exact hD x hx
    · exact hsep
    · exact hpre x hx
  have htake : job.args0.arg.take (strings.IndexAny job.args0.arg gc).toNat
      = D ++ Separator :: pre := by
    rw [hidx, hpat, show D ++ Separator :: (pre ++ c :: post)
      = (D ++ Separator :: pre) ++ c :: post by simp, Int.toNat_ofNat, List.take_left]
  have hne : D ≠ [] := by
    rintro rfl
    simp [path.Clean] at hclean
  have hdot : D ≠ ['.'] := by
    rintro rfl
    exact hDn.2.2.1 (by decide)
  have htrim : trimOf (D ++ Separator :: pre) = D ++ [Separator] := by
    unfold trimOf
    rw [show D ++ Separator :: pre = D ++ '/' :: pre from rfl, path.Dir_append_name D pre hpre2,
      path.Clean_append_slash D hne, hclean, if_neg hdot]
  have hsel := copy_select_glob gc h job hglob (by rw [hidx]; omega)
  rw [htake, htrim] at hsel
  refine ⟨_, hsel, rfl, rfl, rfl, ?_⟩
  simp only [BatchLocalCopy.dstFn, hpar, if_true]
  have e : D ++ Separator :: rel = (D ++ [Separator]) ++ rel := by simp
  rw [e]
  exact drop_trim _ _

/-- Witness of C1: the root `/a/b/` of the example host and its file `/a/b/c/d.txt`, with
the parents option. -/
theorem C1_witness_root_a_b :
    ∃ selC selU,
      BatchLocalCopy.select wildcards demo (demoJob "/a/b/" "dst/" true true) = .ok selC ∧
      BatchLocalUpload.select wildcards demo (demoJob "/a/b/" "dst/" true true) = .ok selU ∧
      BatchLocalCopy.dstFn (demoJob "/a/b/" "dst/" true true) selC "/a/b/c/d.txt".toList
        = "c/d.txt".toList ∧
      BatchLocalUpload.dstFn (demoJob "/a/b/" "dst/" true true) selU "/a/b/c/d.txt".toList
        = "c/d.txt".toList ∧
      (BatchLocalCopy.callback (demoJob "/a/b/" "dst/" true true) selC
          (some "/a/b/c/d.txt".toList)).1.map Job.args
        = some [⟨"/a/b/c/d.txt".toList⟩, ⟨"dst/c/d.txt".toList⟩] ∧
      (BatchLocalUpload.callback (demoJob "/a/b/" "dst/" true true) selU
          (some "/a/b/c/d.txt".toList)).1.map Job.args
        = some [⟨"/a/b/c/d.txt".toList⟩, ⟨"dst/c/d.txt".toList⟩] :=
  C1_walked_root_destination_name wildcards demo (demoJob "/a/b/" "dst/" true true)
    "/a/b".toList "c/".toList "d.txt".toList (by decide) (by decide) (by decide) (by decide)
    (by decide) (by decide) (by decide)

/-- Failing input of C2: the pattern `/*` with the recursive and parents options on the
example host. The trim prefix is `//`, which no path starts with, so the files `/x.txt` and
`/a/b/c/d.txt` keep their full paths as destination names instead of `x.txt` and
`a/b/c/d.txt`. The pattern `/a/../*`, whose directory part `/a/..` is not empty, gives the
same trim prefix and the same sub-jobs. -/
theorem C2_root_pattern_keeps_full_path :
    BatchLocalCopy.select wildcards demo (demoJob "/*" "dst/" true true)
      = .ok ⟨"cp".toList, false, "//".toList, "/*".toList, true⟩ ∧
    BatchLocalCopy.dstFn (demoJob "/*" "dst/" true true)
      ⟨"cp".toList, false, "//".toList, "/*".toList, true⟩ "/x.txt".toList = "/x.txt".toList ∧
    argsOf (BatchLocalCopy wildcards demo (demoJob "/*" "dst/" true true)).jobs
      = [["/a/b/c/d.txt", "dst//a/b/c/d.txt"], ["/x.txt", "dst//x.txt"]] ∧
    BatchLocalCopy.select wildcards demo (demoJob "/a/../*" "dst/" true true)
      = .ok ⟨"cp".toList, false, "//".toList, "/a/../*".toList, true⟩ ∧
    argsOf (BatchLocalCopy wildcards demo (demoJob "/a/../*" "dst/" true true)).jobs
      = [["/a/b/c/d.txt", "dst//a/b/c/d.txt"], ["/x.txt", "dst//x.txt"]] := by
  decide

/-- The pattern `src/*` of the example host in `glob_destination_name`: the path
`src/sub/y.txt` gets the destination name `sub/y.txt`. -/
theorem glob_destination_name_at_src :
    ∃ sel, BatchLocalCopy.select wildcards demo (demoJob "src/*" "dst/" true true) = .ok sel ∧
      sel.walkMode = false ∧ sel.globStart = "src/*".toList ∧ sel.trimPrefix = "src/".toList ∧
      BatchLocalCopy.dstFn (demoJob "src/*" "dst/" true true) sel "src/sub/y.txt".toList
        = "sub/y.txt".toList :=
  glob_destination_name wildcards demo (demoJob "src/*" "dst/" true true) "src".toList [] []
    "sub/y.txt".toList '*' (by decide) (by decide) (by decide) (by decide) (by decide)
    (by decide) (by decide) (by decide) (by decide) (by decide)

/-- The root `/a/b` of the example host in `walked_root_keeps_name`: the file
`/a/b/c/d.txt` gets the destination name `b/c/d.txt`. -/
theorem walked_root_keeps_name_at_a_b :
    ∃ selC selU,
      BatchLocalCopy.select wildcards demo (demoJob "/a/b" "dst/" true true) = .ok selC ∧
      BatchLocalUpload.select wildcards demo (demoJob "/a/b" "dst/" true true) = .ok selU ∧
      selC.trimPrefix = "/a/".toList ∧ selU.trimPrefix = "/a/".toList ∧
      BatchLocalCopy.dstFn (demoJob "/a/b" "dst/" true true) selC "/a/b/c/d.txt".toList
        = "b/c/d.txt".toList ∧
      BatchLocalUpload.dstFn (demoJob "/a/b" "dst/" true true) selU "/a/b/c/d.txt".toList
        = "b/c/d.txt".toList :=
  walked_root_keeps_name wildcards demo (demoJob "/a/b" "dst/" true true) "/a".toList
    "b".toList "c/d.txt".toList (by decide) (Or.inl ⟨by decide, by decide, by decide⟩)
    (by decide) (by decide)

/-- Failing input of C3: the existing empty directories `e[` and `x*` of the example host as
the source of `BatchLocalCopy`. In walk mode the code expands the root followed by `/*` as a
pattern: for `e[` the expansion returns `filepath.ErrBadPattern`, which the producer returns
instead of nil, and for `x*` it returns `xy/f.txt` of the sibling directory `xy`, which is
written to the channel and gets a sub-job. `BatchLocalUpload` walks the same directories
and returns nil with the nil alone on the channel. -/
theorem C3_wildcard_named_empty_directory :
    (demo.Stat "e[".toList = some true ∧ demo.tree "e[".toList = .dir [] ∧
      BatchLocalCopy wildcards demo (demoJob "e[" "dst/" false false)
        = { written := [none], jobs := [], mkdirs := [],
            response := .ret (some .ErrBadPattern) } ∧
      BatchLocalUpload wildcards demo (demoJob "e[" "dst/" false false)
        = { written := [none], jobs := [], mkdirs := [], response := .ret none }) ∧
    (demo.Stat "x*".toList = some true ∧ demo.tree "x*".toList = .dir [] ∧
      itemsOf (BatchLocalCopy wildcards demo (demoJob "x*" "dst/" false false)).written
        = [some "xy/f.txt", none] ∧
      argsOf (BatchLocalCopy wildcards demo (demoJob "x*" "dst/" false false)).jobs
        = [["xy/f.txt", "dst/f.txt"]] ∧
      (BatchLocalCopy wildcards demo (demoJob "x*" "dst/" false false)).response = .ret none ∧
      BatchLocalUpload wildcards demo (demoJob "x*" "dst/" false false)
        = { written := [none], jobs := [], mkdirs := [], response := .ret none }) :=
  ⟨⟨by decide, rfl, by decide, by decide⟩,
    ⟨by decide, rfl, by decide, by decide, by decide, by decide⟩⟩

/-- The empty directory `empty` and the pattern `*.txt` (without a match) of the example
host in `zero_matches_end_the_batch`. -/
theorem zero_matches_at_empty_sources :
    BatchLocalCopy wildcards demo (demoJob "empty" "dst/" false false)
      = { written := [none], jobs := [], mkdirs := [], response := .ret none } ∧
    BatchLocalUpload wildcards demo (demoJob "empty" "dst/" false false)
      = { written := [none], jobs := [], mkdirs := [], response := .ret none } ∧
    BatchLocalCopy wildcards demo (demoJob "*.txt" "dst/" false false)
      = { written := [none], jobs := [], mkdirs := [], response := .ret (some noMatch) } ∧
    BatchLocalUpload wildcards demo (demoJob "*.txt" "dst/" false false)
      = { written := [none], jobs := [], mkdirs := [], response := .ret (some noMatch) } :=
  ⟨((zero_matches_end_the_batch wildcards demo (demoJob "empty" "dst/" false false)).1
      ⟨"cp".toList, true, [], "empty/*".toList, false⟩ (by decide)).2 (by decide),
    ((zero_matches_end_the_batch wildcards demo (demoJob "empty" "dst/" false false)).2
      ⟨"cp".toList, true, []⟩ (by decide)).2.1 (by decide) rfl,
    ((zero_matches_end_the_batch wildcards demo (demoJob "*.txt" "dst/" false false)).1
      ⟨"cp".toList, false, [], "*.txt".toList, false⟩ (by decide)).2 (by decide),
    ((zero_matches_end_the_batch wildcards demo (demoJob "*.txt" "dst/" false false)).2
      ⟨"cp".toList, false, []⟩ (by decide)).2.2 (by decide) (by decide)⟩

/-- Witness of C4: the pattern `src/*` without the recursive option on the example host; the
directory `src/sub` it matches is not written to the channel by either entry point. -/
theorem C4_witness_src_star :
    demo.Stat "src/*".toList ≠ some true ∧
    some "src/sub".toList ∉ (BatchLocalCopy wildcards demo (demoJob "src/*" "dst/" false false)).written ∧
    some "src/sub".toList ∉ (BatchLocalUpload wildcards demo (demoJob "src/*" "dst/" false false)).written :=
  ⟨by decide,
    ((C4_glob_skips_directories wildcards demo (demoJob "src/*" "dst/" false false)
      (by decide)).1 (by decide)).2.1 "src/sub".toList (by decide),
    (C4_glob_skips_directories wildcards demo (demoJob "src/*" "dst/" false false)
      (by decide)).2.2.1 "src/sub".toList (by decide)⟩

/-- Failing input of C5: the pattern `src/*` with the recursive option set on the example
host. The glob expansion returns the directory `src/sub`, which holds the file
`src/sub/y.txt`. `BatchLocalUpload` passes the directory over and writes only `src/x.txt`
and the nil, so no sub-job is made for `src/sub/y.txt`; `BatchLocalCopy` on the same input
descends and writes it. -/
theorem C5_upload_skips_directory_match :
    demo.Glob "src/*".toList = .ok ["src/sub".toList, "src/x.txt".toList] ∧
    demo.Stat "src/sub".toList = some true ∧
    Visit.found "src/sub/y.txt".toList ∈ (demo.tree "src/sub".toList).visits "src/sub".toList ∧
    (demoJob "src/*" "s3://b/" true false).opts.Recursive = true ∧
    itemsOf (BatchLocalUpload wildcards demo (demoJob "src/*" "s3://b/" true false)).written
      = [some "src/x.txt", none] ∧
    argsOf (BatchLocalUpload wildcards demo (demoJob "src/*" "s3://b/" true false)).jobs
      = [["src/x.txt", "s3://b/x.txt"]] ∧
    itemsOf (BatchLocalCopy wildcards demo (demoJob "src/*" "s3://b/" true false)).written
      = [some "src/sub/y.txt", some "src/x.txt", none] := by
  decide

/-- The pattern `src/*` with the recursive option on the example host in
`recursive_glob_descent`: `BatchLocalCopy` writes the file `src/sub/y.txt` beneath the
directory match. -/
theorem recursive_glob_descent_at_src :
    demo.Stat "src/*".toList ≠ some true ∧
    some "src/sub/y.txt".toList
      ∈ (BatchLocalCopy wildcards demo (demoJob "src/*" "dst/" true false)).written :=
  ⟨by decide,
    (recursive_glob_descent wildcards demo (demoJob "src/*" "dst/" true false)
      (by decide)).1 (by decide) (by decide) ["src/sub".toList, "src/x.txt".toList] (by decide)
      "src/sub".toList (by decide) (by decide) "src/sub/y.txt".toList (by decide)⟩

/-- Counterexample to C6, on the example host. Without the recursive option
`BatchLocalUpload` on the directory `src` writes the file `src/sub/y.txt`, which lies beneath
the subdirectory `src/sub`. Without the recursive option `BatchLocalCopy` on the empty
directory `x*` writes `xy/f.txt`, which is not a child of the root: the root is expanded as
a pattern. With the recursive option `BatchLocalCopy` on the directory `s` writes the link
`s/ln`, and `BatchLocalUpload` on the link `ln` writes `ln`: `os.Stat` reports a directory
on both, the walk does not. -/
theorem C6_counterexample_walk_mode :
    (demo.Stat "src".toList = some true ∧
      (demoJob "src" "s3://b/" false false).opts.Recursive = false ∧
      itemsOf (BatchLocalUpload wildcards demo (demoJob "src" "s3://b/" false false)).written
        = [some "src/sub/y.txt", some "src/x.txt", none]) ∧
    (demo.Stat "x*".toList = some true ∧ demo.tree "x*".toList = .dir [] ∧
      (demoJob "x*" "dst/" false false).opts.Recursive = false ∧
      itemsOf (BatchLocalCopy wildcards demo (demoJob "x*" "dst/" false false)).written
        = [some "xy/f.txt", none]) ∧
    (demo.Stat "s".toList = some true ∧ demo.Stat "s/ln".toList = some true ∧
      itemsOf (BatchLocalCopy wildcards demo (demoJob "s" "dst/" true false)).written
        = [some "s/ln", none] ∧
      demo.Stat "ln".toList = some true ∧
      itemsOf (BatchLocalUpload wildcards demo (demoJob "ln" "s3://b/" false false)).written
        = [some "ln", none]) :=
  ⟨by decide, ⟨by decide, rfl, by decide, by decide⟩, by decide⟩

/-- Witness of C6 (amended): the directory `src` of the example host without the recursive
option. The expansion of `src/*` returns the entries `sub` and `x.txt` of the root, and
`BatchLocalCopy` writes only `src/x.txt`, a direct child; `BatchLocalUpload` writes what the
walk finds, `src/sub/y.txt` included. -/
theorem C6_witness_src :
    demo.Stat "src".toList = some true ∧
    (∃ e ∈ [("sub".toList, FileTree.dir [("y.txt".toList, FileTree.file)]),
        ("x.txt".toList, FileTree.file)],
      "src/x.txt".toList = filepath.Join "src".toList e.1 ∧
        demo.Stat "src/x.txt".toList = some false) ∧
    (BatchLocalUpload wildcards demo (demoJob "src" "s3://b/" false false)).written
      = [some "src/sub/y.txt".toList, some "src/x.txt".toList, none] ∧
    some "src/sub/y.txt".toList
      ∈ (BatchLocalUpload wildcards demo (demoJob "src" "s3://b/" false false)).written :=
  ⟨by decide,
    ((C6_walk_mode_descent wildcards demo (demoJob "src" "s3://b/" false false) (by decide)).1
      ⟨"cp".toList, true, [], "src/*".toList, false⟩ (by decide)).2.2.2.1 (by decide)
      [("sub".toList, .dir [("y.txt".toList, .file)]), ("x.txt".toList, .file)] rfl
      (by
        intro ma hma
        have hg : demo.Glob "src/*".toList = .ok ["src/sub".toList, "src/x.txt".toList] := by
          decide
        rw [show (CopyLocals.mk "cp".toList true [] "src/*".toList false).globStart
          = "src/*".toList from rfl, hg] at hma
        cases hma
        decide)
      "src/x.txt".toList (by decide),
    (C6_walk_mode_descent wildcards demo (demoJob "src" "s3://b/" false false)
      (by decide)).2.1,
    (C6_walk_mode_descent wildcards demo (demoJob "src" "s3://b/" false false)
      (by decide)).2.2.2 (by decide) "src/sub/y.txt".toList (by decide)⟩

/-- Witness of C7: the operand `nope` (no such directory, no wildcard character) and the
directory `src` on the example host. -/
theorem C7_witness_nope_and_src :
    (BatchLocalCopy wildcards demo (demoJob "nope" "dst/" false false) =
        { written := [], jobs := [], mkdirs := [],
          response := .ret (some (.New "internal error, not a glob: nope".toList)) } ∧
      BatchLocalUpload wildcards demo (demoJob "nope" "dst/" false false) =
        { written := [], jobs := [], mkdirs := [],
          response := .ret (some (.New "internal error, not a glob: nope".toList)) }) ∧
    BatchLocalCopy [] demo (demoJob "src" "dst/" false false)
      = BatchLocalCopy wildcards demo (demoJob "src" "dst/" false false) :=
  ⟨(C7_selector_error wildcards demo (demoJob "nope" "dst/" false false)).1
      ⟨by decide, by decide⟩,
    (((C7_selector_error wildcards demo (demoJob "src" "dst/" false false)).2
      (by decide)).2.2 []).1⟩

/-- Witness of C8: the pattern `u/*` with the recursive option on the example host; the walk
of `u/a` meets `a.txt`, then the unreadable directory `locked`. -/
theorem C8_witness_unreadable :
    (BatchLocalCopy wildcards demo (demoJob "u/*" "dst/" true false)).written
      = [some "u/a/a.txt".toList, none] ∧
    (BatchLocalCopy wildcards demo (demoJob "u/*" "dst/" true false)).response
      = .ret (some (.PathError "permission denied".toList)) :=
  ((C8_termination_protocol wildcards demo (demoJob "u/*" "dst/" true false)).1
    ⟨"cp".toList, false, "u/".toList, "u/*".toList, true⟩ (by decide)).2.2.1
    ["u/a/a.txt".toList] (.PathError "permission denied".toList)
    [.found "u/a/z.txt".toList] (by decide)

/-- Failing input of C9: the root `/a` of the example host, written without a trailing
separator, with the parents option. Its parent directory is `/`, the trim prefix is `//`, and
the file `/a/b/c/d.txt` gets its full path as destination name instead of `a/b/c/d.txt`, in
both entry points. -/
theorem C9_top_level_root_keeps_full_path :
    BatchLocalCopy.select wildcards demo (demoJob "/a" "dst/" true true)
      = .ok ⟨"cp".toList, true, "//".toList, "/a/*".toList, true⟩ ∧
    BatchLocalUpload.select wildcards demo (demoJob "/a" "dst/" true true)
      = .ok ⟨"cp".toList, true, "//".toList⟩ ∧
    path.Dir "/a".toList = "/".toList ∧
    filepath.Base "/a".toList = "a".toList ∧
    BatchLocalCopy.dstFn (demoJob "/a" "dst/" true true)
      ⟨"cp".toList, true, "//".toList, "/a/*".toList, true⟩ "/a/b/c/d.txt".toList
        = "/a/b/c/d.txt".toList ∧
    BatchLocalUpload.dstFn (demoJob "/a" "dst/" true true)
      ⟨"cp".toList, true, "//".toList⟩ "/a/b/c/d.txt".toList = "/a/b/c/d.txt".toList ∧
    argsOf (BatchLocalCopy wildcards demo (demoJob "/a" "dst/" true true)).jobs
      = [["/a/b/c/d.txt", "dst//a/b/c/d.txt"]] ∧
    argsOf (BatchLocalUpload wildcards demo (demoJob "/a" "dst/" true true)).jobs
      = [["/a/b/c/d.txt", "dst//a/b/c/d.txt"]] := by
  decide

/-- Failing input of C10: the pattern `d/*` on the example host. The glob expansion returns
the dangling link `d/link`, `os.Stat` fails on it, and both producers call `IsDir` on the nil
file info: the run faults after the deferred nil is written. -/
theorem C10_dangling_link_faults :
    demo.Glob "d/*".toList = .ok ["d/link".toList] ∧
    demo.Stat "d/link".toList = none ∧
    BatchLocalCopy wildcards demo (demoJob "d/*" "dst/" false false)
      = { written := [none], jobs := [], mkdirs := [], response := .fault } ∧
    BatchLocalUpload wildcards demo (demoJob "d/*" "dst/" false false)
      = { written := [none], jobs := [], mkdirs := [], response := .fault } := by
  decide

end S5cmd
